import Mathlib

/-!
# Line breaking and line placement of `internal/text.go`

A shallow embedding of the text component of maroto (`internal/text.go`):
`getLines` (the line breaker), `GetLinesQuantity` (the line-count query),
`Add` / `addLine` (the line placer) and `textToUnicode` (the normalizer).

Modelling conventions.

* A Go `string` is a finite byte sequence; it is modelled as `List Char`, one
  `Char` standing for one byte.  `len(s)` is `List.length`.
* `float64` values are modelled as rationals (`ℚ`): the arithmetic of the source
  (`+`, `-`, `*`, `/`, `<`, `>`) is read as exact arithmetic.  Rounding, NaN and
  infinities are outside the model.
* Collaborators that the component only calls (`fpdf.Fpdf`, `Font`) are records:
  their pure capabilities are functions, their mutable state is threaded
  explicitly, and every state-changing call is appended to a call log.
* `bufio.Scanner` and `strings.Split` belong to the Go standard library; they
  are modelled from their library source, including the removal of a trailing
  carriage return by `ScanLines` and the token-size limit of the scanner.
-/

namespace Maroto

/-- A Go string, as a sequence of bytes. -/
abbrev Str := List Char

/-! ## Standard library: `strings.Split` and `bufio.Scanner` -/

/-- The function `strings.Split(s, sep)` for a one-byte separator: the pieces of
`s` between the occurrences of `sep`.  A string without separator (the empty
string included) gives the one-element result `[s]`. -/
def Split (s : Str) (sep : Char) : List Str :=
  match s with
  | [] => [[]]
  | c :: cs =>
    if c = sep then [] :: Split cs sep
    else
      match Split cs sep with
      | [] => [[c]]
      | w :: ws => (c :: w) :: ws

/-- The constant `bufio.MaxScanTokenSize`, `64 * 1024`: the size of the largest
buffer a `bufio.Scanner` made by `bufio.NewScanner` allocates. -/
def MaxScanTokenSize : Nat := 64 * 1024

/-- The helper `dropCR` of `bufio.ScanLines`: drops one trailing `\r`. -/
def dropCR (data : Str) : Str :=
  if data.getLast? = some '\r' then data.dropLast else data

/-- The tokens a `bufio.Scanner` with the split function `bufio.ScanLines` and
buffer limit `maxTok` yields, when `cur` is the part of the current line that
has been read so far and `rest` is the unread input.

* At a `\n` the current line is complete; it is yielded without its `\n` and
  without one trailing `\r`.
* At the end of the input a non-empty unterminated line is yielded the same
  way; an empty one is not a token.
* A line of `maxTok` bytes or more does not fit the buffer together with the
  byte that ends it: `Scan` reports `ErrTooLong` by returning `false`, and the
  `for sc.Scan()` loop of the caller ends there. -/
def scanFrom (maxTok : Nat) : Str → Str → List Str
  | cur, [] =>
    if cur = [] then []
    else if maxTok ≤ cur.length then []
    else [dropCR cur]
  | cur, c :: rest =>
    if c = '\n' then
      if maxTok ≤ cur.length then []
      else dropCR cur :: scanFrom maxTok [] rest
    else scanFrom maxTok (cur ++ [c]) rest

/-- The successive values of `sc.Text()` in
`sc := bufio.NewScanner(strings.NewReader(text)); for sc.Scan() ...`. -/
def scanLines (text : Str) : List Str :=
  scanFrom MaxScanTokenSize [] text

/-! ## The line breaker `getLines` -/

/-- The words of the inner loop of `getLines`: `word += " "` for every word but
the last one (`i != len(words)-1`). -/
def spacedWords : List Str → List Str
  | [] => []
  | [w] => [w]
  | w :: w2 :: ws => (w ++ [' ']) :: spacedWords (w2 :: ws)

/-- The variables the word loop of `getLines` updates. -/
structure WrapState where
  /-- The result slice `lines`. -/
  lines : List Str
  /-- The accumulator `currentlyLine`. -/
  currentlyLine : Str
  /-- The width `currentlySize` of the accumulator. -/
  currentlySize : ℚ

/-- One iteration of the word loop of `getLines` (lines 96 to 111), for a word
that already carries its trailing space. -/
def wordStep (width : Str → ℚ) (colWidth : ℚ) (st : WrapState) (word : Str) :
    WrapState :=
  let wordWidth := width word
  if wordWidth > colWidth then
    ⟨st.lines ++ [word], st.currentlyLine, st.currentlySize⟩
  else if wordWidth + st.currentlySize < colWidth then
    ⟨st.lines, st.currentlyLine ++ word, st.currentlySize + wordWidth⟩
  else
    ⟨st.lines ++ [st.currentlyLine], word, wordWidth⟩

/-- One iteration of the scanner loop of `getLines` (lines 81 to 116): `lines`
is the result so far, `line` the scanned source line. -/
def lineStep (width : Str → ℚ) (colWidth : ℚ) (extrapolate : Bool)
    (lines : List Str) (line : Str) : List Str :=
  if width line < colWidth ∨ extrapolate = true then lines ++ [line]
  else
    let st := (spacedWords (Split line ' ')).foldl (wordStep width colWidth)
      ⟨lines, [], 0⟩
    if st.currentlyLine ≠ [] then st.lines ++ [st.currentlyLine] else st.lines

/-- The method `getLines`; `width` is `s.pdf.GetStringWidth` under the font
that is active during the call. -/
def getLines (width : Str → ℚ) (text : Str) (colWidth : ℚ) (extrapolate : Bool) :
    List Str :=
  (scanLines text).foldl (lineStep width colWidth extrapolate) []

/-! ## Collaborators: constants, props, cell, font state and renderer -/

/-- Modelled from the spec: the type `consts.Family` (package `pkg/consts`, not
among the sources).  The five classic families the normalizer names, and any
other family, which a caller registers under a name of its own. -/
inductive consts.Family where
  | Arial
  | Helvetica
  | Symbol
  | ZapBats
  | Courier
  | Custom (name : String)
  deriving DecidableEq, Repr

/-- Modelled from the spec: the type `consts.Style` (package `pkg/consts`, not
among the sources), the weight and style flags of a font. -/
inductive consts.Style where
  | Normal
  | Bold
  | Italic
  | BoldItalic
  deriving DecidableEq, Repr

/-- Modelled from the spec: the type `consts.Align` (package `pkg/consts`, not
among the sources), restricted to the horizontal alignments of a text. -/
inductive consts.Align where
  | Left
  | Center
  | Right
  deriving DecidableEq, Repr

/-- Modelled from the spec: the type `color.Color` (not among the sources), an
RGB colour. -/
structure Color where
  Red : Int
  Green : Int
  Blue : Int
  deriving DecidableEq, Repr

/-- Modelled from the spec: the type `props.Text` (package `pkg/props`, not among
the sources), with the fields `internal/text.go` reads. -/
structure props.Text where
  Family : consts.Family
  Style : consts.Style
  Size : ℚ
  Align : consts.Align
  Extrapolate : Bool
  VerticalPadding : ℚ
  Color : Color

/-- Modelled from the spec: the type `Cell` (file `internal/math.go`, not among
the sources): origin and size of a cell. -/
structure Cell where
  X : ℚ
  Y : ℚ
  Width : ℚ
  Height : ℚ

/-- A state-changing call the component makes on its collaborators. -/
inductive Call where
  /-- The call `font.SetFont(family, style, size)`. -/
  | SetFont (family : consts.Family) (style : consts.Style) (size : ℚ)
  /-- The call `font.SetColor(color)`. -/
  | SetColor (color : Color)
  /-- The call `pdf.Text(x, y, text)`. -/
  | Text (x y : ℚ) (text : Str)
  deriving DecidableEq

/-- Modelled from the spec: the font state behind the interface `Font` (file
`internal/font.go`, not among the sources): current family, style, size and
colour, and the scale factor of the document. -/
structure FontState where
  family : consts.Family
  style : consts.Style
  size : ℚ
  color : Color
  scaleFactor : ℚ

/-- The capabilities of the renderer `fpdf.Fpdf` that do not change during a
call of the component. -/
structure Fpdf where
  /-- The width `GetStringWidth` reports for a string under the given current
  font (family, style, size). -/
  stringWidth : consts.Family → consts.Style → ℚ → Str → ℚ
  /-- The function `UnicodeTranslatorFromDescriptor("")` returns. -/
  translator : Str → Str
  /-- The left margin, first result of `GetMargins`. -/
  left : ℚ
  /-- The top margin, second result of `GetMargins`. -/
  top : ℚ

/-- The mutable state shared with the collaborators: the font state and the log
of the state-changing calls made so far, oldest first. -/
structure State where
  font : FontState
  calls : List Call

/-- Modelled from the spec: the method `Font.SetFont` (file `internal/font.go`,
not among the sources) makes family, style and size current. -/
def SetFont (s : State) (family : consts.Family) (style : consts.Style) (size : ℚ) :
    State :=
  ⟨⟨family, style, size, s.font.color, s.font.scaleFactor⟩,
    s.calls ++ [Call.SetFont family style size]⟩

/-- Modelled from the spec: the method `Font.GetFont` (file `internal/font.go`,
not among the sources) returns the current family, style and size. -/
def GetFont (s : State) : consts.Family × consts.Style × ℚ :=
  (s.font.family, s.font.style, s.font.size)

/-- Modelled from the spec: the method `Font.SetColor` (file `internal/font.go`,
not among the sources) makes a colour current. -/
def SetColor (s : State) (color : Color) : State :=
  ⟨⟨s.font.family, s.font.style, s.font.size, color, s.font.scaleFactor⟩,
    s.calls ++ [Call.SetColor color]⟩

/-- Modelled from the spec: the method `Font.GetColor` (file `internal/font.go`,
not among the sources) returns the current colour. -/
def GetColor (s : State) : Color :=
  s.font.color

/-- Modelled from the spec: the method `Font.GetScaleFactor` (file
`internal/font.go`, not among the sources). -/
def GetScaleFactor (s : State) : ℚ :=
  s.font.scaleFactor

/-- The method `pdf.GetStringWidth` under the font that is current in `s`. -/
def GetStringWidth (pdf : Fpdf) (s : State) (str : Str) : ℚ :=
  pdf.stringWidth s.font.family s.font.style s.font.size str

/-- The method `pdf.Text`: records the draw call. -/
def Text (s : State) (x y : ℚ) (txt : Str) : State :=
  ⟨s.font, s.calls ++ [Call.Text x y txt]⟩

/-! ## The component: `textToUnicode`, `addLine`, `Add`, `GetLinesQuantity` -/

/-- The method `textToUnicode` (lines 141 to 152). -/
def textToUnicode (pdf : Fpdf) (txt : Str) (props : props.Text) : Str :=
  if props.Family = consts.Family.Arial ∨
      props.Family = consts.Family.Helvetica ∨
      props.Family = consts.Family.Symbol ∨
      props.Family = consts.Family.ZapBats ∨
      props.Family = consts.Family.Courier then
    pdf.translator txt
  else txt

/-- The method `addLine` (lines 122 to 139). -/
def addLine (pdf : Fpdf) (s : State) (textProp : props.Text)
    (xColOffset colWidth yColOffset textWidth : ℚ) (text : Str) : State :=
  let left := pdf.left
  let top := pdf.top
  if textProp.Align = consts.Align.Left then
    Text s (xColOffset + left) (yColOffset + top) text
  else
    let modifier : ℚ := if textProp.Align = consts.Align.Right then 1 else 2
    let dx := (colWidth - textWidth) / modifier
    Text s (dx + xColOffset + left) (yColOffset + top) text

/-- The loop `for index, line := range lines` of `Add` (lines 52 to 59), from
position `index` on; `cell` already has its `Y` advanced by the font height and
`accumulateOffsetY` is the padding accumulated so far. -/
def addLoop (pdf : Fpdf) (textProp : props.Text) (cell : Cell) :
    Nat → List Str → ℚ → State → State
  | _, [], _, s => s
  | index, line :: rest, accumulateOffsetY, s =>
    let lineWidth := GetStringWidth pdf s line
    let fontSize := (GetFont s).2.2
    let textHeight := fontSize / GetScaleFactor s
    let s1 := addLine pdf s textProp cell.X cell.Width
      (cell.Y + (index : ℚ) * textHeight + accumulateOffsetY) lineWidth line
    addLoop pdf textProp cell (index + 1) rest
      (accumulateOffsetY + textProp.VerticalPadding) s1

/-- The method `Add` (lines 34 to 62). -/
def Add (pdf : Fpdf) (s : State) (text : Str) (cell : Cell) (textProp : props.Text) :
    State :=
  let s1 := SetFont s textProp.Family textProp.Style textProp.Size
  let originalColor := GetColor s1
  let s2 := SetColor s1 textProp.Color
  let fontSize := (GetFont s2).2.2
  let fontHeight := fontSize / GetScaleFactor s2
  let cell1 : Cell := ⟨cell.X, cell.Y + fontHeight, cell.Width, cell.Height⟩
  let unicodeText := textToUnicode pdf text textProp
  let lines := getLines (GetStringWidth pdf s2) unicodeText cell1.Width
    textProp.Extrapolate
  let s3 := addLoop pdf textProp cell1 0 lines 0 s2
  SetColor s3 originalColor

/-- The method `GetLinesQuantity` (lines 65 to 74): the line count, and the state
after the call. -/
def GetLinesQuantity (pdf : Fpdf) (s : State) (text : Str) (textProp : props.Text)
    (colWidth : ℚ) : Nat × State :=
  let translator := pdf.translator
  let s1 := SetFont s textProp.Family textProp.Style textProp.Size
  let textTranslated := translator text
  let lines := getLines (GetStringWidth pdf s1) textTranslated colWidth
    textProp.Extrapolate
  (lines.length, s1)

/-! ## Auxiliary notions used by the statements -/

/-- The width oracle "width = character count": every byte is one unit wide. -/
def charCount (s : Str) : ℚ := (s.length : ℚ)

/-- The words of the source lines of a text, as the word loop of `getLines` sees
them: `L` is a word of some scanned line, with its trailing space unless it is
the last word of that line. -/
def IsWordOf (text : Str) (L : Str) : Prop :=
  ∃ src ∈ scanLines text, L ∈ spacedWords (Split src ' ')

/-- A line that respects the column: narrower than the column, or one of the
words `T` and not narrower than the column. -/
def LineOK (width : Str → ℚ) (colWidth : ℚ) (T : List Str) (L : Str) : Prop :=
  width L < colWidth ∨ (L ∈ T ∧ colWidth ≤ width L)

/-- The invariant of the word loop for the width bound. -/
def WrapInv (width : Str → ℚ) (colWidth : ℚ) (T : List Str) (st : WrapState) : Prop :=
  (∀ L ∈ st.lines, LineOK width colWidth T L) ∧
  st.currentlySize = width st.currentlyLine ∧
  (width st.currentlyLine < colWidth ∨
    (st.currentlyLine ∈ T ∧ width st.currentlyLine ≤ colWidth))

/-- The words of a string, in the words of the spec: the non-empty pieces between
spaces, in order (the spaces themselves are stripped). -/
def wordsIn (s : Str) : List Str :=
  (Split s ' ').filter (fun w => decide (w ≠ []))

/-- The words of a sequence of lines, read line by line in order. -/
def wordsOfLines (lines : List Str) : List Str :=
  (lines.map wordsIn).flatten

/-- The draw calls of a call log: the arguments `(x, y, text)` of its `pdf.Text`
calls, in order. -/
def drawCalls : List Call → List (ℚ × ℚ × Str)
  | [] => []
  | Call.Text x y t :: cs => (x, y, t) :: drawCalls cs
  | Call.SetFont _ _ _ :: cs => drawCalls cs
  | Call.SetColor _ :: cs => drawCalls cs

/-- The horizontal placement of a line, in the words of the spec: `cell.x +
leftMargin` for `Left`, plus half the slack for `Center`, plus the full slack
for `Right`. -/
def alignedX (align : consts.Align) (cellX leftMargin colWidth lineWidth : ℚ) : ℚ :=
  match align with
  | consts.Align.Left => cellX + leftMargin
  | consts.Align.Center => cellX + leftMargin + (colWidth - lineWidth) / 2
  | consts.Align.Right => cellX + leftMargin + (colWidth - lineWidth)

/-- A translator for concrete evaluations: a fragment of the cp1252 translator of
the renderer.  A byte below 0x80 is kept.  The two bytes C3 A9, the UTF-8
encoding of the letter e with acute accent, become the single byte E9.  Any
other byte of 0x80 or more is taken as a byte that is not part of a valid UTF-8
sequence and becomes a full stop, as the translator of the renderer writes for
what it cannot translate.  UTF-8 sequences other than C3 A9 are outside this
fragment. -/
def translateEAcute : Str → Str
  | [] => []
  | [c] => if c.toNat < 128 then [c] else ['.']
  | c :: d :: rest =>
    if c = '\xc3' ∧ d = '\xa9' then '\xe9' :: translateEAcute rest
    else if c.toNat < 128 then c :: translateEAcute (d :: rest)
    else '.' :: translateEAcute (d :: rest)

/-- A renderer for concrete evaluations: under every font each byte is one unit
wide, the translator is `translateEAcute`, and the margins are as given. -/
def unitPdf (left top : ℚ) : Fpdf :=
  ⟨fun _ _ _ str => charCount str, translateEAcute, left, top⟩

/-- A font state for concrete evaluations: Arial, size 10, black, scale factor 1,
and no call made yet. -/
def freshState : State :=
  ⟨⟨consts.Family.Arial, consts.Style.Normal, 10, ⟨0, 0, 0⟩, 1⟩, []⟩

/-- Drops a final empty piece from a list of pieces. -/
def trimLast (l : List Str) : List Str :=
  if l.getLast? = some [] then l.dropLast else l

/-- The hard-newline-delimited segments of a text, in the words of the spec: the
pieces of the text between its newlines, each as it stands in the text.  A
newline ends a segment, so nothing follows the final newline of a text, and the
empty text has no segment. -/
def hardLines (text : Str) : List Str :=
  trimLast (Split text '\n')

/-- The vertical placement of the line at position `i`, in the words of the spec:
`cell.y + fontHeight + i * fontHeight + i * verticalPadding`. -/
def claimedY (cellY fontHeight verticalPadding : ℚ) (i : Nat) : ℚ :=
  cellY + fontHeight + (i : ℚ) * fontHeight + (i : ℚ) * verticalPadding

/-- The invariant of the word loop for a line that is exactly as wide as the
column; `done` lists the words processed so far.  As long as nothing has been
emitted the accumulator holds all the words so far and is narrower than the
column; and when exactly one line has been emitted the accumulator is not
empty. -/
def FitInv (width : Str → ℚ) (colWidth : ℚ) (done : List Str) (st : WrapState) :
    Prop :=
  (st.lines = [] →
      st.currentlySize = width done.flatten ∧ st.currentlySize < colWidth) ∧
    (st.lines.length = 1 → st.currentlyLine ≠ [])

/-- The longest prefix of the words whose summed widths stay below the column
width, in the words of the spec; `sum` is the width already used on the line. -/
def fitPrefix (width : Str → ℚ) (colWidth : ℚ) : ℚ → List Str → List Str
  | _, [] => []
  | sum, w :: ws =>
    if width w + sum < colWidth then w :: fitPrefix width colWidth (sum + width w) ws
    else []

/-- Greedy packing, in the words of the spec: the first line is the longest
prefix of the words whose summed widths stay below the column width, and the
remaining words are packed the same way.  `fuel` bounds the number of lines. -/
def greedyPack (width : Str → ℚ) (colWidth : ℚ) : Nat → List Str → List Str
  | 0, _ => []
  | _ + 1, [] => []
  | fuel + 1, w :: ws =>
    (fitPrefix width colWidth 0 (w :: ws)).flatten ::
      greedyPack width colWidth fuel
        ((w :: ws).drop (fitPrefix width colWidth 0 (w :: ws)).length)

/-- Greedy packing of a list of words; there are at most as many lines as
words. -/
def greedyLines (width : Str → ℚ) (colWidth : ℚ) (ws : List Str) : List Str :=
  greedyPack width colWidth ws.length ws

/-- The allow-list of `textToUnicode`: the families whose text is translated. -/
def isClassicFamily (f : consts.Family) : Prop :=
  f = consts.Family.Arial ∨ f = consts.Family.Helvetica ∨ f = consts.Family.Symbol ∨
    f = consts.Family.ZapBats ∨ f = consts.Family.Courier

/-! ## Theorems -/

theorem width_nil (width : Str → ℚ)
    (hadd : ∀ a b, width (a ++ b) = width a + width b) : width [] = 0 := by
  have h := hadd [] []
  simp at h
  exact h

theorem wordStep_inv (width : Str → ℚ) (colWidth : ℚ) (T : List Str)
    (hadd : ∀ a b, width (a ++ b) = width a + width b)
    (st : WrapState) (word : Str) (hw : word ∈ T)
    (hst : WrapInv width colWidth T st) :
    WrapInv width colWidth T (wordStep width colWidth st word) := by
  obtain ⟨hl, hs, hc⟩ := hst
  unfold wordStep
  by_cases h1 : width word > colWidth
  · simp only [h1, if_true]
    refine ⟨?_, hs, hc⟩
    intro L hL
    rcases List.mem_append.mp hL with h | h
    · exact hl L h
    · simp at h
      subst h
      exact Or.inr ⟨hw, le_of_lt h1⟩
  · simp only [h1, if_false]
    by_cases h2 : width word + st.currentlySize < colWidth
    · simp only [h2, if_true]
      refine ⟨hl, ?_, Or.inl ?_⟩
      · simp only [hadd, hs]
      · simp only [hadd]
        rw [hs] at h2
        linarith
    · simp only [h2, if_false]
      refine ⟨?_, rfl, Or.inr ⟨hw, le_of_not_gt h1⟩⟩
      intro L hL
      rcases List.mem_append.mp hL with h | h
      · exact hl L h
      · simp at h
        subst h
        rcases hc with hc | hc
        · exact Or.inl hc
        · by_cases h3 : width st.currentlyLine < colWidth
          · exact Or.inl h3
          · exact Or.inr ⟨hc.1, le_of_not_lt h3⟩

theorem foldl_wordStep_inv (width : Str → ℚ) (colWidth : ℚ) (T : List Str)
    (hadd : ∀ a b, width (a ++ b) = width a + width b) :
    ∀ (ws : List Str) (st : WrapState), (∀ w ∈ ws, w ∈ T) →
      WrapInv width colWidth T st →
      WrapInv width colWidth T (ws.foldl (wordStep width colWidth) st) := by
  intro ws
  induction ws with
  | nil => intro st _ hst; exact hst
  | cons w ws ih =>
    intro st hT hst
    simp only [List.foldl_cons]
    apply ih
    · intro v hv
      exact hT v (List.mem_cons_of_mem _ hv)
    · exact wordStep_inv width colWidth T hadd st w (hT w (List.mem_cons_self _ _)) hst

theorem wordStep_prepend (width : Str → ℚ) (colWidth : ℚ) (pre : List Str)
    (st : WrapState) (word : Str) :
    wordStep width colWidth ⟨pre ++ st.lines, st.currentlyLine, st.currentlySize⟩ word =
      ⟨pre ++ (wordStep width colWidth st word).lines,
        (wordStep width colWidth st word).currentlyLine,
        (wordStep width colWidth st word).currentlySize⟩ := by
  unfold wordStep
  by_cases h1 : width word > colWidth
  · simp [h1]
  · by_cases h2 : width word + st.currentlySize < colWidth
    · simp [h1, h2]
    · simp [h1, h2]

theorem foldl_wordStep_prepend (width : Str → ℚ) (colWidth : ℚ) (pre : List Str) :
    ∀ (ws : List Str) (st : WrapState),
      ws.foldl (wordStep width colWidth)
          ⟨pre ++ st.lines, st.currentlyLine, st.currentlySize⟩ =
        ⟨pre ++ (ws.foldl (wordStep width colWidth) st).lines,
          (ws.foldl (wordStep width colWidth) st).currentlyLine,
          (ws.foldl (wordStep width colWidth) st).currentlySize⟩ := by
  intro ws
  induction ws with
  | nil => intro st; rfl
  | cons w ws ih =>
    intro st
    simp only [List.foldl_cons]
    rw [wordStep_prepend, ih]

theorem lineStep_prepend (width : Str → ℚ) (colWidth : ℚ) (extrapolate : Bool)
    (lines : List Str) (line : Str) :
    lineStep width colWidth extrapolate lines line =
      lines ++ lineStep width colWidth extrapolate [] line := by
  unfold lineStep
  by_cases h : width line < colWidth ∨ extrapolate = true
  · simp [h]
  · simp only [h, if_false]
    have hp := foldl_wordStep_prepend width colWidth lines
      (spacedWords (Split line ' ')) ⟨[], [], 0⟩
    simp only [List.append_nil] at hp
    rw [hp]
    by_cases hc : ((spacedWords (Split line ' ')).foldl (wordStep width colWidth)
        ⟨[], [], 0⟩).currentlyLine = []
    · simp [hc]
    · simp [hc]

theorem foldl_lineStep (width : Str → ℚ) (colWidth : ℚ) (extrapolate : Bool) :
    ∀ (srcs : List Str) (lines : List Str),
      srcs.foldl (lineStep width colWidth extrapolate) lines =
        lines ++ (srcs.map (lineStep width colWidth extrapolate [])).flatten := by
  intro srcs
  induction srcs with
  | nil => intro lines; simp
  | cons src srcs ih =>
    intro lines
    simp only [List.foldl_cons, List.map_cons, List.flatten_cons]
    rw [ih, lineStep_prepend, List.append_assoc]

/-- The result of `getLines` is the concatenation, in order, of what each scanned
source line contributes. -/
theorem getLines_eq_join (width : Str → ℚ) (text : Str) (colWidth : ℚ)
    (extrapolate : Bool) :
    getLines width text colWidth extrapolate =
      ((scanLines text).map (lineStep width colWidth extrapolate [])).flatten := by
  unfold getLines
  rw [foldl_lineStep]
  simp

theorem lineStep_bound (width : Str → ℚ) (colWidth : ℚ) (hcw : 0 < colWidth)
    (hadd : ∀ a b, width (a ++ b) = width a + width b)
    (line : Str) (L : Str)
    (hL : L ∈ lineStep width colWidth false [] line) :
    LineOK width colWidth (spacedWords (Split line ' ')) L := by
  unfold lineStep at hL
  by_cases h1 : width line < colWidth
  · simp [h1] at hL
    subst hL
    exact Or.inl h1
  · simp only [h1, Bool.false_eq_true, or_self, if_false] at hL
    have hinv := foldl_wordStep_inv width colWidth (spacedWords (Split line ' ')) hadd
      (spacedWords (Split line ' ')) ⟨[], [], 0⟩ (fun w hw => hw)
      ⟨fun L hL => by simp at hL, by simp [width_nil width hadd],
        Or.inl (by simp [width_nil width hadd, hcw])⟩
    obtain ⟨hl, -, hc⟩ := hinv
    split at hL
    · rcases List.mem_append.mp hL with h | h
      · exact hl L h
      · simp at h
        subst h
        rcases hc with hc | hc
        · exact Or.inl hc
        · by_cases h3 : width ((spacedWords (Split line ' ')).foldl
              (wordStep width colWidth) ⟨[], [], 0⟩).currentlyLine < colWidth
          · exact Or.inl h3
          · exact Or.inr ⟨hc.1, le_of_not_lt h3⟩
    · exact hl L hL

theorem getLines_bound (width : Str → ℚ) (colWidth : ℚ) (hcw : 0 < colWidth)
    (hadd : ∀ a b, width (a ++ b) = width a + width b)
    (text : Str) (L : Str) (hL : L ∈ getLines width text colWidth false) :
    width L < colWidth ∨ (IsWordOf text L ∧ colWidth ≤ width L) := by
  rw [getLines_eq_join] at hL
  simp only [List.mem_flatten, List.mem_map] at hL
  obtain ⟨ls, ⟨src, hsrc, rfl⟩, hLs⟩ := hL
  rcases lineStep_bound width colWidth hcw hadd src L hLs with h | h
  · exact Or.inl h
  · exact Or.inr ⟨⟨src, hsrc, h.1⟩, h.2⟩

theorem charCount_append (a b : Str) :
    charCount (a ++ b) = charCount a + charCount b := by
  simp [charCount]

theorem getLines_quick_brown_fox :
    getLines charCount "The quick brown fox".toList 12 false =
      ["The quick ".toList, "brown fox".toList] := by
  simp [getLines, scanLines, scanFrom, MaxScanTokenSize, lineStep, charCount, dropCR,
    Split, spacedWords, wordStep]
  norm_num
  simp

theorem getLines_wide_word_eval :
    getLines charCount "a bbbbbbbbbbbb c".toList 5 false =
      ["bbbbbbbbbbbb ".toList, "a c".toList] := by
  simp [getLines, scanLines, scanFrom, MaxScanTokenSize, lineStep, charCount, dropCR,
    Split, spacedWords, wordStep]
  norm_num
  simp

/-! ### C1: width bound -/

/-- Claim C1 (width bound of `getLines`).  For every text, every positive column
width and every width oracle that is additive over concatenation, without
extrapolation: every returned line is at most as wide as the column unless it is
a single word of a source line (with its trailing space, if it is not the last
word) that is wider than the column; and every returned line that is not a
single word is strictly narrower than the column.  Non-negativity of the oracle
is not needed. -/
theorem getLines_width_bound (width : Str → ℚ) (text : Str) (colWidth : ℚ)
    (hcw : 0 < colWidth)
    (hadd : ∀ a b, width (a ++ b) = width a + width b)
    (L : Str) (hL : L ∈ getLines width text colWidth false) :
    (width L ≤ colWidth ∨ (IsWordOf text L ∧ colWidth < width L)) ∧
      (¬ IsWordOf text L → width L < colWidth) := by
  have h := getLines_bound width colWidth hcw hadd text L hL
  constructor
  · rcases h with h | ⟨hw, hle⟩
    · exact Or.inl (le_of_lt h)
    · rcases lt_or_eq_of_le hle with h2 | h2
      · exact Or.inr ⟨hw, h2⟩
      · exact Or.inl (le_of_eq h2.symm)
  · intro hn
    rcases h with h | ⟨hw, _⟩
    · exact h
    · exact absurd hw hn

/-- Witness of C1: the line "The quick " of "The quick brown fox" in a column of
width 12, with width = character count. -/
theorem getLines_width_bound_witness :
    "The quick ".toList ∈ getLines charCount "The quick brown fox".toList 12 false ∧
    ((charCount "The quick ".toList ≤ 12 ∨
        (IsWordOf "The quick brown fox".toList "The quick ".toList ∧
          12 < charCount "The quick ".toList)) ∧
      (¬ IsWordOf "The quick brown fox".toList "The quick ".toList →
        charCount "The quick ".toList < 12)) :=
  ⟨by rw [getLines_quick_brown_fox]; simp,
    getLines_width_bound charCount "The quick brown fox".toList 12 (by norm_num)
      charCount_append "The quick ".toList
      (by rw [getLines_quick_brown_fox]; simp)⟩

/-! ### C2: order of the words -/

/-- Claim C2 (order preservation of `getLines`), evaluated where the code departs
from it.  In "a bbbbbbbbbbbb c" with width = character count and a column of
width 5 the middle word is wider than the column: `getLines` appends it to the
result at once and keeps the accumulator "a " for the words that follow, so the
result is "bbbbbbbbbbbb " followed by "a c", and the words of the result are not
in the order of the text. -/
theorem getLines_wide_word_reorders :
    getLines charCount "a bbbbbbbbbbbb c".toList 5 false =
        ["bbbbbbbbbbbb ".toList, "a c".toList] ∧
      wordsOfLines (getLines charCount "a bbbbbbbbbbbb c".toList 5 false) =
        ["bbbbbbbbbbbb".toList, "a".toList, "c".toList] ∧
      wordsIn "a bbbbbbbbbbbb c".toList =
        ["a".toList, "bbbbbbbbbbbb".toList, "c".toList] ∧
      wordsOfLines (getLines charCount "a bbbbbbbbbbbb c".toList 5 false) ≠
        wordsIn "a bbbbbbbbbbbb c".toList := by
  rw [getLines_wide_word_eval]
  refine ⟨rfl, by decide, by decide, by decide⟩

/-! ### C3: line count of the counting path and of the drawing path -/

theorem addLine_eq (pdf : Fpdf) (s : State) (textProp : props.Text)
    (xColOffset colWidth yColOffset textWidth : ℚ) (text : Str) :
    addLine pdf s textProp xColOffset colWidth yColOffset textWidth text =
      Text s (alignedX textProp.Align xColOffset pdf.left colWidth textWidth)
        (yColOffset + pdf.top) text := by
  unfold addLine alignedX
  cases hA : textProp.Align
  · simp
  · simp
    congr 1
    ring
  · simp
    congr 1
    ring

/-- The draw loop of `Add` leaves the font state alone and appends one `Text` call
per line, the line at position `i` at height
`cell.Y + i * textHeight + i * VerticalPadding + top`. -/
theorem addLoop_eq (pdf : Fpdf) (textProp : props.Text) (cell : Cell) :
    ∀ (lines : List Str) (index : Nat) (s : State),
      addLoop pdf textProp cell index lines ((index : ℚ) * textProp.VerticalPadding) s =
        ⟨s.font, s.calls ++ (lines.enumFrom index).map (fun il =>
          Call.Text
            (alignedX textProp.Align cell.X pdf.left cell.Width
              (pdf.stringWidth s.font.family s.font.style s.font.size il.2))
            (cell.Y + (il.1 : ℚ) * (s.font.size / s.font.scaleFactor) +
              (il.1 : ℚ) * textProp.VerticalPadding + pdf.top)
            il.2)⟩ := by
  intro lines
  induction lines with
  | nil => intro index s; simp [addLoop]
  | cons line rest ih =>
    intro index s
    have hacc : (index : ℚ) * textProp.VerticalPadding + textProp.VerticalPadding =
        ((index + 1 : Nat) : ℚ) * textProp.VerticalPadding := by
      push_cast
      ring
    simp only [addLoop, hacc, addLine_eq]
    rw [ih]
    simp [Text, GetStringWidth, GetFont, GetScaleFactor, List.enumFrom_cons]

theorem GetStringWidth_after_SetFont (pdf : Fpdf) (s : State) (textProp : props.Text) :
    GetStringWidth pdf (SetFont s textProp.Family textProp.Style textProp.Size) =
      pdf.stringWidth textProp.Family textProp.Style textProp.Size := rfl

/-- The state `Add` returns, in closed form: the font selected, the colour as it
was, and the calls `SetFont`, `SetColor`, one `Text` per line, `SetColor`. -/
theorem Add_eq (pdf : Fpdf) (s : State) (text : Str) (cell : Cell)
    (textProp : props.Text) :
    Add pdf s text cell textProp =
      ⟨⟨textProp.Family, textProp.Style, textProp.Size, s.font.color, s.font.scaleFactor⟩,
        s.calls ++
          [Call.SetFont textProp.Family textProp.Style textProp.Size,
            Call.SetColor textProp.Color] ++
          ((getLines (pdf.stringWidth textProp.Family textProp.Style textProp.Size)
              (textToUnicode pdf text textProp) cell.Width
              textProp.Extrapolate).enumFrom 0).map (fun il =>
            Call.Text
              (alignedX textProp.Align cell.X pdf.left cell.Width
                (pdf.stringWidth textProp.Family textProp.Style textProp.Size il.2))
              (cell.Y + textProp.Size / s.font.scaleFactor +
                (il.1 : ℚ) * (textProp.Size / s.font.scaleFactor) +
                (il.1 : ℚ) * textProp.VerticalPadding + pdf.top)
              il.2) ++
          [Call.SetColor s.font.color]⟩ := by
  unfold Add
  have h := addLoop_eq pdf textProp
    ⟨cell.X, cell.Y + textProp.Size / s.font.scaleFactor, cell.Width, cell.Height⟩
    (getLines (pdf.stringWidth textProp.Family textProp.Style textProp.Size)
      (textToUnicode pdf text textProp) cell.Width textProp.Extrapolate) 0
    (SetColor (SetFont s textProp.Family textProp.Style textProp.Size) textProp.Color)
  simp only [Nat.cast_zero, zero_mul] at h
  change SetColor (addLoop pdf textProp
    ⟨cell.X, cell.Y + textProp.Size / s.font.scaleFactor, cell.Width, cell.Height⟩ 0
    (getLines (pdf.stringWidth textProp.Family textProp.Style textProp.Size)
      (textToUnicode pdf text textProp) cell.Width textProp.Extrapolate) 0
    (SetColor (SetFont s textProp.Family textProp.Style textProp.Size) textProp.Color))
    s.font.color = _
  rw [h]
  simp [SetColor, SetFont]

theorem drawCalls_append (a b : List Call) :
    drawCalls (a ++ b) = drawCalls a ++ drawCalls b := by
  induction a with
  | nil => rfl
  | cons c cs ih =>
    cases c <;> simp [drawCalls, ih]

theorem drawCalls_map_Text {α : Type} (f : α → ℚ) (g : α → ℚ) (h : α → Str)
    (l : List α) :
    drawCalls (l.map (fun a => Call.Text (f a) (g a) (h a))) =
      l.map (fun a => (f a, g a, h a)) := by
  induction l with
  | nil => rfl
  | cons a as ih => simp [drawCalls, ih]

/-- The draw calls `Add` issues, in closed form. -/
theorem Add_drawCalls (pdf : Fpdf) (s : State) (text : Str) (cell : Cell)
    (textProp : props.Text) :
    drawCalls (Add pdf s text cell textProp).calls =
      drawCalls s.calls ++
        ((getLines (pdf.stringWidth textProp.Family textProp.Style textProp.Size)
            (textToUnicode pdf text textProp) cell.Width
            textProp.Extrapolate).enumFrom 0).map (fun il =>
          (alignedX textProp.Align cell.X pdf.left cell.Width
              (pdf.stringWidth textProp.Family textProp.Style textProp.Size il.2),
            cell.Y + textProp.Size / s.font.scaleFactor +
              (il.1 : ℚ) * (textProp.Size / s.font.scaleFactor) +
              (il.1 : ℚ) * textProp.VerticalPadding + pdf.top,
            il.2)) := by
  rw [Add_eq]
  simp only [drawCalls_append, drawCalls_map_Text]
  simp [drawCalls]

theorem getLines_cafe_translated :
    getLines charCount "caf\xe9".toList 5 false = ["caf\xe9".toList] := by
  simp [getLines, scanLines, scanFrom, MaxScanTokenSize, lineStep, charCount, dropCR]
  norm_num

theorem getLines_cafe_raw :
    getLines charCount "caf\xc3\xa9".toList 5 false = [[], "caf\xc3\xa9".toList] := by
  simp [getLines, scanLines, scanFrom, MaxScanTokenSize, lineStep, charCount, dropCR,
    Split, spacedWords, wordStep]

/-- Claim C3 (line count consistency), evaluated where the code departs from it.
The font family is a custom one, outside the allow-list of `textToUnicode`; the
text is "caf" followed by the two bytes C3 A9, each byte is one unit wide and
the column is 5 wide.  `GetLinesQuantity` translates the text whatever the
family is, measures 4 units and counts one line; `Add` leaves the text of a
custom family untranslated, measures 5 units, wraps, and draws two lines. -/
theorem GetLinesQuantity_custom_family_differs :
    (GetLinesQuantity (unitPdf 10 10) freshState "caf\xc3\xa9".toList
        ⟨consts.Family.Custom "dejavu", consts.Style.Normal, 10, consts.Align.Left,
          false, 0, ⟨0, 0, 0⟩⟩ 5).1 = 1 ∧
      (getLines (GetStringWidth (unitPdf 10 10)
          (SetFont freshState (consts.Family.Custom "dejavu") consts.Style.Normal 10))
        (textToUnicode (unitPdf 10 10) "caf\xc3\xa9".toList
          ⟨consts.Family.Custom "dejavu", consts.Style.Normal, 10, consts.Align.Left,
            false, 0, ⟨0, 0, 0⟩⟩) 5 false).length = 2 ∧
      (drawCalls (Add (unitPdf 10 10) freshState "caf\xc3\xa9".toList ⟨0, 0, 5, 20⟩
        ⟨consts.Family.Custom "dejavu", consts.Style.Normal, 10, consts.Align.Left,
          false, 0, ⟨0, 0, 0⟩⟩).calls).length = 2 := by
  have hG : GetStringWidth (unitPdf 10 10)
      (SetFont freshState (consts.Family.Custom "dejavu") consts.Style.Normal 10) =
      charCount := rfl
  have hS : (unitPdf 10 10).stringWidth (consts.Family.Custom "dejavu")
      consts.Style.Normal 10 = charCount := rfl
  have hT : textToUnicode (unitPdf 10 10) "caf\xc3\xa9".toList
      ⟨consts.Family.Custom "dejavu", consts.Style.Normal, 10, consts.Align.Left,
        false, 0, ⟨0, 0, 0⟩⟩ = "caf\xc3\xa9".toList := by
    simp [textToUnicode]
  have hQ : (unitPdf 10 10).translator "caf\xc3\xa9".toList = "caf\xe9".toList := by
    decide
  refine ⟨?_, ?_, ?_⟩
  · unfold GetLinesQuantity
    simp only [hG, hQ, getLines_cafe_translated]
    rfl
  · rw [hG, hT, getLines_cafe_raw]
    rfl
  · rw [Add_drawCalls, hS, hT, getLines_cafe_raw]
    rfl

/-! ### C4: extrapolation -/

theorem Split_ne_nil (s : Str) (sep : Char) : Split s sep ≠ [] := by
  cases s with
  | nil => simp [Split]
  | cons c cs =>
    unfold Split
    by_cases h : c = sep
    · simp [h]
    · simp only [h, if_false]
      split <;> simp

theorem Split_cons_sep (cs : Str) (sep : Char) :
    Split (sep :: cs) sep = [] :: Split cs sep := by
  rw [Split]
  simp

theorem Split_cons_ne (c : Char) (cs : Str) (sep : Char) (h : c ≠ sep) (w : Str)
    (ws : List Str) (hs : Split cs sep = w :: ws) :
    Split (c :: cs) sep = (c :: w) :: ws := by
  rw [Split]
  simp [h, hs]

theorem Split_of_not_mem (sep : Char) : ∀ (s : Str), sep ∉ s → Split s sep = [s] := by
  intro s
  induction s with
  | nil => intro _; rfl
  | cons c cs ih =>
    intro h
    have hc : c ≠ sep := fun e => h (by simp [e])
    have hcs : sep ∉ cs := fun e => h (List.mem_cons_of_mem _ e)
    exact Split_cons_ne c cs sep hc cs [] (ih hcs)

/-- The scanner on input without newline: one token, unless the input is empty or
too long for the buffer. -/
theorem scanFrom_no_newline (maxTok : Nat) :
    ∀ (rest cur : Str), '\n' ∉ rest →
      scanFrom maxTok cur rest =
        if cur ++ rest = [] then []
        else if maxTok ≤ (cur ++ rest).length then []
        else [dropCR (cur ++ rest)] := by
  intro rest
  induction rest with
  | nil => intro cur _; simp [scanFrom]
  | cons c r ih =>
    intro cur h
    have hc : c ≠ '\n' := fun e => h (by simp [e])
    have hr : '\n' ∉ r := fun e => h (List.mem_cons_of_mem _ e)
    rw [scanFrom]
    simp only [hc, if_false]
    rw [ih (cur ++ [c]) hr]
    simp

theorem trimLast_cons_cons (a b : Str) (l : List Str) :
    trimLast (a :: b :: l) = a :: trimLast (b :: l) := by
  unfold trimLast
  by_cases h : (b :: l).getLast? = some []
  · simp [List.getLast?_cons_cons, h]
  · simp [List.getLast?_cons_cons, h]

/-- The scanner in terms of the pieces between newlines, when every segment fits
the buffer. -/
theorem scanFrom_eq_trimLast (maxTok : Nat) :
    ∀ (rest cur h : Str) (t : List Str), Split rest '\n' = h :: t →
      (∀ seg ∈ trimLast ((cur ++ h) :: t), seg.length < maxTok) →
      scanFrom maxTok cur rest = (trimLast ((cur ++ h) :: t)).map dropCR := by
  intro rest
  induction rest with
  | nil =>
    intro cur h t hs hlim
    simp [Split] at hs
    obtain ⟨rfl, rfl⟩ := hs
    by_cases hc : cur = []
    · simp [scanFrom, trimLast, hc]
    · have hl : cur.length < maxTok := by
        apply hlim
        simp [trimLast, hc]
      simp [scanFrom, trimLast, hc, Nat.not_le.mpr hl]
  | cons c r ih =>
    intro cur h t hs hlim
    obtain ⟨h1, t1, hr⟩ : ∃ h1 t1, Split r '\n' = h1 :: t1 := by
      cases hsp : Split r '\n' with
      | nil => exact absurd hsp (Split_ne_nil r '\n')
      | cons a b => exact ⟨a, b, rfl⟩
    by_cases hc : c = '\n'
    · subst hc
      rw [Split_cons_sep, hr] at hs
      simp only [List.cons.injEq] at hs
      obtain ⟨rfl, rfl⟩ := hs
      simp only [List.append_nil] at hlim ⊢
      rw [trimLast_cons_cons] at hlim ⊢
      have hl : cur.length < maxTok := hlim cur (List.mem_cons_self _ _)
      rw [scanFrom]
      simp only [if_true, Nat.not_le.mpr hl, if_false, List.map_cons]
      have := ih [] h1 t1 hr (by
        intro seg hseg
        exact hlim seg (List.mem_cons_of_mem _ (by simpa using hseg)))
      simp only [List.nil_append] at this
      rw [this]
    · rw [Split_cons_ne c r '\n' hc h1 t1 hr] at hs
      simp only [List.cons.injEq] at hs
      obtain ⟨rfl, rfl⟩ := hs
      rw [scanFrom]
      simp only [hc, if_false]
      have := ih (cur ++ [c]) h1 t1 hr (by simpa using hlim)
      simpa using this

theorem scanLines_eq_hardLines (text : Str)
    (hlim : ∀ seg ∈ hardLines text, seg.length < MaxScanTokenSize) :
    scanLines text = (hardLines text).map dropCR := by
  obtain ⟨h1, t1, hr⟩ : ∃ h1 t1, Split text '\n' = h1 :: t1 := by
    cases hsp : Split text '\n' with
    | nil => exact absurd hsp (Split_ne_nil text '\n')
    | cons a b => exact ⟨a, b, rfl⟩
  unfold hardLines at hlim ⊢
  rw [hr] at hlim ⊢
  have := scanFrom_eq_trimLast MaxScanTokenSize text [] h1 t1 hr (by simpa using hlim)
  simpa [scanLines] using this

theorem foldl_lineStep_extrapolate (width : Str → ℚ) (colWidth : ℚ) :
    ∀ (srcs lines : List Str),
      srcs.foldl (lineStep width colWidth true) lines = lines ++ srcs := by
  intro srcs
  induction srcs with
  | nil => intro lines; simp
  | cons src srcs ih =>
    intro lines
    simp only [List.foldl_cons]
    rw [ih]
    simp [lineStep]

/-- With extrapolation `getLines` returns the scanned source lines as they are. -/
theorem getLines_true_eq_scanLines (width : Str → ℚ) (text : Str)
    (colWidth : ℚ) : getLines width text colWidth true = scanLines text := by
  unfold getLines
  rw [foldl_lineStep_extrapolate]
  simp

theorem replicate_a_no_newline (n : Nat) : '\n' ∉ List.replicate n 'a' := by
  intro h
  have := List.eq_of_mem_replicate h
  exact absurd this (by decide)

theorem scanLines_replicate_long (n : Nat) (hn : MaxScanTokenSize ≤ n) :
    scanLines (List.replicate n 'a') = [] := by
  unfold scanLines
  rw [scanFrom_no_newline MaxScanTokenSize _ [] (replicate_a_no_newline n)]
  simp [hn]

theorem hardLines_replicate (n : Nat) (hn : 0 < n) :
    hardLines (List.replicate n 'a') = [List.replicate n 'a'] := by
  unfold hardLines
  rw [Split_of_not_mem '\n' _ (replicate_a_no_newline n)]
  have h : List.replicate n 'a' ≠ [] := by
    intro h
    have := congrArg List.length h
    simp at this
    omega
  simp [trimLast, h]

theorem scanLines_long_line :
    scanLines (List.replicate 65536 'a') = [] :=
  scanLines_replicate_long 65536 (by decide)

theorem hardLines_long_line :
    hardLines (List.replicate 65536 'a') = [List.replicate 65536 'a'] :=
  hardLines_replicate 65536 (by decide)

/-- Claim C4 as stated fails.  The text "a" followed by a carriage return has no
newline and is its own single segment, yet `getLines` with extrapolation returns
the line "a": the scanner removes a trailing carriage return from every line.
And a text of 65536 letters `a` is one segment, yet `getLines` returns no line
at all: the line does not fit the buffer of the scanner. -/
theorem getLines_extrapolate_not_segments :
    (getLines charCount "a\r".toList 10 true = ["a".toList] ∧
        hardLines "a\r".toList = ["a\r".toList] ∧
        getLines charCount "a\r".toList 10 true ≠ hardLines "a\r".toList) ∧
      (getLines charCount (List.replicate 65536 'a') 10 true = [] ∧
        (hardLines (List.replicate 65536 'a')).length = 1) := by
  refine ⟨⟨?_, by decide, ?_⟩, ?_, ?_⟩
  · rw [getLines_true_eq_scanLines]
    decide
  · rw [getLines_true_eq_scanLines]
    decide
  · rw [getLines_true_eq_scanLines, scanLines_long_line]
  · rw [hardLines_long_line]
    rfl

/-- Claim C4, amended (extrapolation bypass).  For every text each of whose
hard-newline-delimited segments is shorter than `bufio.MaxScanTokenSize`, every
column width and every width oracle, `getLines` with extrapolation returns the
segments of the text in order, each without one trailing carriage return and
otherwise unchanged; so the number of lines, and `GetLinesQuantity` for a text
the translator maps to that text, is the number of segments, whatever the
widths are. -/
theorem getLines_extrapolate (width : Str → ℚ) (text : Str) (colWidth : ℚ)
    (hlim : ∀ seg ∈ hardLines text, seg.length < MaxScanTokenSize) :
    getLines width text colWidth true = (hardLines text).map dropCR ∧
      (getLines width text colWidth true).length = (hardLines text).length ∧
      ∀ (pdf : Fpdf) (s : State) (raw : Str) (f : consts.Family) (st : consts.Style)
        (size vp : ℚ) (a : consts.Align) (c : Color),
        pdf.translator raw = text →
        (GetLinesQuantity pdf s raw ⟨f, st, size, a, true, vp, c⟩ colWidth).1 =
          (hardLines text).length := by
  have h1 : ∀ w : Str → ℚ, getLines w text colWidth true = (hardLines text).map dropCR := by
    intro w
    rw [getLines_true_eq_scanLines, scanLines_eq_hardLines text hlim]
  refine ⟨h1 width, by rw [h1 width, List.length_map], ?_⟩
  intro pdf s raw f st size vp a c ht
  simp only [GetLinesQuantity, ht, h1, List.length_map]

/-- Witness of C4: the text "ab", carriage return, newline, "c", newline. -/
theorem getLines_extrapolate_witness :
    (∀ seg ∈ hardLines "ab\r\nc\n".toList, seg.length < MaxScanTokenSize) ∧
      getLines charCount "ab\r\nc\n".toList 1 true = ["ab".toList, "c".toList] ∧
      (hardLines "ab\r\nc\n".toList).length = 2 :=
  ⟨by decide,
    (getLines_extrapolate charCount "ab\r\nc\n".toList 1 (by decide)).1.trans
      (by decide),
    by decide⟩

/-! ### C5: horizontal placement -/

/-- Claim C5 (horizontal placement in `addLine`).  For every cell x, column
width, line width and margins, `addLine` makes exactly the call `Text` with
x = cell.x + leftMargin for `Left`, cell.x + leftMargin + (colWidth -
lineWidth) / 2 for `Center` and cell.x + leftMargin + (colWidth - lineWidth) for
`Right`; with `Right`, cell x 10, width 100, line width 30 and left margin 5 the
x coordinate is 85. -/
theorem addLine_horizontal (pdf : Fpdf) (s : State) (f : consts.Family)
    (st : consts.Style) (size vp : ℚ) (e : Bool) (c : Color)
    (cellX colWidth y lineWidth : ℚ) (text : Str) :
    (addLine pdf s ⟨f, st, size, consts.Align.Left, e, vp, c⟩ cellX colWidth y lineWidth
        text).calls =
        s.calls ++ [Call.Text (cellX + pdf.left) (y + pdf.top) text] ∧
      (addLine pdf s ⟨f, st, size, consts.Align.Center, e, vp, c⟩ cellX colWidth y
        lineWidth text).calls =
        s.calls ++ [Call.Text (cellX + pdf.left + (colWidth - lineWidth) / 2)
          (y + pdf.top) text] ∧
      (addLine pdf s ⟨f, st, size, consts.Align.Right, e, vp, c⟩ cellX colWidth y
        lineWidth text).calls =
        s.calls ++ [Call.Text (cellX + pdf.left + (colWidth - lineWidth))
          (y + pdf.top) text] ∧
      (addLine (unitPdf 5 0) s ⟨f, st, size, consts.Align.Right, e, vp, c⟩ 10 100 y 30
        text).calls =
        s.calls ++ [Call.Text 85 (y + 0) text] := by
  simp only [addLine_eq, Text, alignedX, unitPdf]
  refine ⟨trivial, trivial, trivial, ?_⟩
  norm_num

/-! ### C6: vertical placement -/

theorem getLines_a_b :
    getLines charCount "a\nb".toList 100 false = ["a".toList, "b".toList] := by
  simp [getLines, scanLines, scanFrom, MaxScanTokenSize, lineStep, charCount, dropCR]

theorem Add_two_lines_drawCalls (top : ℚ) :
    drawCalls (Add (unitPdf 10 top) freshState "a\nb".toList ⟨0, 0, 100, 50⟩
      ⟨consts.Family.Arial, consts.Style.Normal, 10, consts.Align.Left, false, 2,
        ⟨0, 0, 0⟩⟩).calls =
      [(10, 10 + top, "a".toList), (10, 22 + top, "b".toList)] := by
  have hS : (unitPdf 10 top).stringWidth consts.Family.Arial consts.Style.Normal 10 =
      charCount := rfl
  have hT : textToUnicode (unitPdf 10 top) "a\nb".toList
      ⟨consts.Family.Arial, consts.Style.Normal, 10, consts.Align.Left, false, 2,
        ⟨0, 0, 0⟩⟩ = "a\nb".toList := by
    simp [textToUnicode, unitPdf, translateEAcute]
  rw [Add_drawCalls, hS, hT, getLines_a_b]
  simp [drawCalls, freshState, alignedX, unitPdf, List.enumFrom]
  norm_num

/-- Claim C6 as stated fails.  Two lines, vertical padding 2, font size 10 and
scale factor 1 (so font height 10), cell.y = 0, and a top margin of 10: the
lines are drawn at y = 20 and y = 32, not at the claimed y = 10 and y = 22,
because `addLine` adds the top margin of the page to the y coordinate. -/
theorem Add_vertical_not_claimed :
    (drawCalls (Add (unitPdf 10 10) freshState "a\nb".toList ⟨0, 0, 100, 50⟩
        ⟨consts.Family.Arial, consts.Style.Normal, 10, consts.Align.Left, false, 2,
          ⟨0, 0, 0⟩⟩).calls).map (fun d => d.2.1) = [20, 32] ∧
      [claimedY 0 (10 / 1) 2 0, claimedY 0 (10 / 1) 2 1] = [10, 22] ∧
      (drawCalls (Add (unitPdf 10 10) freshState "a\nb".toList ⟨0, 0, 100, 50⟩
        ⟨consts.Family.Arial, consts.Style.Normal, 10, consts.Align.Left, false, 2,
          ⟨0, 0, 0⟩⟩).calls).map (fun d => d.2.1) ≠
        [claimedY 0 (10 / 1) 2 0, claimedY 0 (10 / 1) 2 1] := by
  rw [Add_two_lines_drawCalls]
  refine ⟨by norm_num, by norm_num [claimedY], ?_⟩
  norm_num [claimedY]

/-- Claim C6, amended (vertical placement in `Add`).  For every text, cell, props
and state, with fontHeight = Size / scaleFactor, the y coordinate `Add` passes
to `Text` for the line at position `i` (from 0) is
cell.y + fontHeight + i * fontHeight + i * VerticalPadding + topMargin; the
lines are drawn in order, one call each.  With a top margin of 0, two lines,
vertical padding 2, font height 10 and cell.y = 0 are drawn at y = 10 and
y = 22. -/
theorem Add_vertical_placement (pdf : Fpdf) (s : State) (text : Str) (cell : Cell)
    (textProp : props.Text) :
    (drawCalls (Add pdf s text cell textProp).calls).map (fun d => (d.2.1, d.2.2)) =
        (drawCalls s.calls).map (fun d => (d.2.1, d.2.2)) ++
          (getLines (pdf.stringWidth textProp.Family textProp.Style textProp.Size)
            (textToUnicode pdf text textProp) cell.Width
            textProp.Extrapolate).enum.map (fun il =>
              (claimedY cell.Y (textProp.Size / s.font.scaleFactor)
                  textProp.VerticalPadding il.1 + pdf.top, il.2)) ∧
      (drawCalls (Add (unitPdf 10 0) freshState "a\nb".toList ⟨0, 0, 100, 50⟩
        ⟨consts.Family.Arial, consts.Style.Normal, 10, consts.Align.Left, false, 2,
          ⟨0, 0, 0⟩⟩).calls).map (fun d => d.2.1) = [10, 22] := by
  constructor
  · rw [Add_drawCalls]
    simp [List.enum, claimedY, Function.comp_def]
  · rw [Add_two_lines_drawCalls]
    norm_num

/-! ### C7: colour -/

/-- Claim C7 (colour restore in `Add`).  For every text, cell, props and state,
the font colour after `Add` is the font colour before it, and the calls `Add`
makes are: `SetFont`, then `SetColor` with the colour of the props, then one
`Text` call per line and nothing else, then `SetColor` with the colour that was
current before the call.  The colour is thus set once before the first line and
restored once after the last one. -/
theorem Add_restores_color (pdf : Fpdf) (s : State) (text : Str) (cell : Cell)
    (textProp : props.Text) :
    GetColor (Add pdf s text cell textProp) = GetColor s ∧
      ∃ draws : List (ℚ × ℚ × Str),
        draws.map (fun d => d.2.2) =
          getLines (pdf.stringWidth textProp.Family textProp.Style textProp.Size)
            (textToUnicode pdf text textProp) cell.Width textProp.Extrapolate ∧
        (Add pdf s text cell textProp).calls =
          s.calls ++
            [Call.SetFont textProp.Family textProp.Style textProp.Size,
              Call.SetColor textProp.Color] ++
            draws.map (fun d => Call.Text d.1 d.2.1 d.2.2) ++
            [Call.SetColor (GetColor s)] := by
  rw [Add_eq]
  refine ⟨rfl, ⟨((getLines (pdf.stringWidth textProp.Family textProp.Style textProp.Size)
      (textToUnicode pdf text textProp) cell.Width
      textProp.Extrapolate).enumFrom 0).map (fun il =>
        (alignedX textProp.Align cell.X pdf.left cell.Width
            (pdf.stringWidth textProp.Family textProp.Style textProp.Size il.2),
          cell.Y + textProp.Size / s.font.scaleFactor +
            (il.1 : ℚ) * (textProp.Size / s.font.scaleFactor) +
            (il.1 : ℚ) * textProp.VerticalPadding + pdf.top,
          il.2)), ?_, ?_⟩⟩
  · simp [Function.comp_def, List.enumFrom_map_snd]
  · simp [GetColor, Function.comp_def]

/-! ### C8: empty text -/

theorem getLines_nil (width : Str → ℚ) (colWidth : ℚ) (extrapolate : Bool) :
    getLines width [] colWidth extrapolate = [] := by
  simp [getLines, scanLines, scanFrom]

/-- Claim C8 (empty text).  For every column width, extrapolate flag and width
oracle, `getLines` of the empty text is the empty sequence; and with a
translator that maps the empty string to itself, `GetLinesQuantity` of the empty
text is 0 and `Add` of the empty text makes no `Text` call: its calls are
`SetFont`, `SetColor`, `SetColor`. -/
theorem empty_text_no_lines (pdf : Fpdf) (s : State) (cell : Cell)
    (textProp : props.Text) (width : Str → ℚ) (colWidth : ℚ) (extrapolate : Bool)
    (ht : pdf.translator [] = []) :
    getLines width [] colWidth extrapolate = [] ∧
      (GetLinesQuantity pdf s [] textProp colWidth).1 = 0 ∧
      drawCalls (Add pdf s [] cell textProp).calls = drawCalls s.calls ∧
      (Add pdf s [] cell textProp).calls =
        s.calls ++ [Call.SetFont textProp.Family textProp.Style textProp.Size,
          Call.SetColor textProp.Color, Call.SetColor (GetColor s)] := by
  have hu : textToUnicode pdf [] textProp = [] := by
    unfold textToUnicode
    split
    · exact ht
    · rfl
  refine ⟨getLines_nil _ _ _, ?_, ?_, ?_⟩
  · simp [GetLinesQuantity, ht, getLines_nil]
  · rw [Add_drawCalls, hu, getLines_nil]
    simp
  · rw [Add_eq, hu, getLines_nil]
    simp [GetColor]

/-- Witness of C8: the renderer of the concrete evaluations, whose translator
maps the empty string to itself. -/
theorem empty_text_no_lines_witness :
    (unitPdf 10 10).translator [] = [] ∧
      (GetLinesQuantity (unitPdf 10 10) freshState []
        ⟨consts.Family.Arial, consts.Style.Normal, 10, consts.Align.Left, false, 2,
          ⟨0, 0, 0⟩⟩ 50).1 = 0 :=
  ⟨rfl, (empty_text_no_lines (unitPdf 10 10) freshState ⟨0, 0, 100, 50⟩
    ⟨consts.Family.Arial, consts.Style.Normal, 10, consts.Align.Left, false, 2,
      ⟨0, 0, 0⟩⟩ charCount 50 false rfl).2.1⟩

/-! ### C9: a single word wider than the column -/

theorem scanLines_single (text : Str) (hne : text ≠ []) (hnl : '\n' ∉ text)
    (hcr : text.getLast? ≠ some '\r') (hlen : text.length < MaxScanTokenSize) :
    scanLines text = [text] := by
  unfold scanLines
  rw [scanFrom_no_newline MaxScanTokenSize text [] hnl]
  simp [hne, Nat.not_le.mpr hlen, dropCR, hcr]

theorem getLines_single_source (width : Str → ℚ) (text line : Str) (colWidth : ℚ)
    (extrapolate : Bool) (hsrc : scanLines text = [line]) :
    getLines width text colWidth extrapolate =
      lineStep width colWidth extrapolate [] line := by
  simp [getLines, hsrc]

theorem getLines_ab_cr :
    getLines charCount "ab\r".toList 1 false = ["ab".toList] := by
  simp [getLines, scanLines, scanFrom, MaxScanTokenSize, lineStep, charCount, dropCR,
    Split, spacedWords, wordStep]

/-- Claim C9 as stated fails.  The text "ab" followed by a carriage return has
neither space nor newline and is 3 wide in a column of width 1, yet `getLines`
returns the line "ab", without the carriage return the scanner removed.  And a
word of 65536 letters `a`, in a column of width 10, gives no line at all: the
scanner gives up on a line that does not fit its buffer, and `getLines` does not
look at the error. -/
theorem getLines_single_word_not_verbatim :
    (' ' ∉ "ab\r".toList ∧ '\n' ∉ "ab\r".toList ∧
        (1 : ℚ) < charCount "ab\r".toList ∧
        getLines charCount "ab\r".toList 1 false = ["ab".toList] ∧
        getLines charCount "ab\r".toList 1 false ≠ ["ab\r".toList]) ∧
      (' ' ∉ List.replicate 65536 'a' ∧ '\n' ∉ List.replicate 65536 'a' ∧
        (10 : ℚ) < charCount (List.replicate 65536 'a') ∧
        getLines charCount (List.replicate 65536 'a') 10 false = [] ∧
        getLines charCount (List.replicate 65536 'a') 10 false ≠
          [List.replicate 65536 'a']) := by
  have hlong : getLines charCount (List.replicate 65536 'a') 10 false = [] := by
    unfold getLines
    rw [scanLines_long_line]
    rfl
  refine ⟨⟨by decide, by decide, by norm_num [charCount], getLines_ab_cr, ?_⟩,
    ?_, replicate_a_no_newline 65536, ?_, hlong, ?_⟩
  · rw [getLines_ab_cr]
    decide
  · intro h
    exact absurd (List.eq_of_mem_replicate h) (by decide)
  · simp only [charCount, List.length_replicate]
    norm_num
  · rw [hlong]
    exact (List.cons_ne_nil _ _).symm

/-- Claim C9, amended (unbreakable word).  For every non-empty text without space
and without newline that does not end in a carriage return and is shorter than
`bufio.MaxScanTokenSize`, and every column width smaller than the measured width
of the text, `getLines` without extrapolation returns exactly one line, the
whole text unmodified. -/
theorem getLines_single_word (width : Str → ℚ) (text : Str) (colWidth : ℚ)
    (hne : text ≠ []) (hsp : ' ' ∉ text) (hnl : '\n' ∉ text)
    (hcr : text.getLast? ≠ some '\r') (hlen : text.length < MaxScanTokenSize)
    (hwide : colWidth < width text) :
    getLines width text colWidth false = [text] := by
  rw [getLines_single_source width text text colWidth false
    (scanLines_single text hne hnl hcr hlen)]
  unfold lineStep
  simp [not_lt.mpr (le_of_lt hwide), Split_of_not_mem ' ' text hsp, spacedWords,
    wordStep, hwide]

/-- Witness of C9: "Supercalifragilisticexpialidocious" with width = character
count in a column of width 10. -/
theorem getLines_single_word_witness :
    (10 : ℚ) < charCount "Supercalifragilisticexpialidocious".toList ∧
      getLines charCount "Supercalifragilisticexpialidocious".toList 10 false =
        ["Supercalifragilisticexpialidocious".toList] :=
  ⟨by norm_num [charCount],
    getLines_single_word charCount "Supercalifragilisticexpialidocious".toList 10
      (by decide) (by decide) (by decide) (by decide) (by decide)
      (by norm_num [charCount])⟩

/-! ### C10: a line exactly as wide as the column -/

/-- The words of the word loop, put together again, are the source line. -/
theorem flatten_spacedWords_Split :
    ∀ (line : Str), (spacedWords (Split line ' ')).flatten = line := by
  intro line
  induction line with
  | nil => simp [Split, spacedWords]
  | cons c cs ih =>
    obtain ⟨w, ws, hs⟩ : ∃ w ws, Split cs ' ' = w :: ws := by
      cases hsp : Split cs ' ' with
      | nil => exact absurd hsp (Split_ne_nil cs ' ')
      | cons a b => exact ⟨a, b, rfl⟩
    rw [hs] at ih
    by_cases hc : c = ' '
    · subst hc
      rw [Split_cons_sep, hs]
      simp only [spacedWords, List.flatten_cons, List.nil_append, List.singleton_append]
      rw [ih]
    · rw [Split_cons_ne c cs ' ' hc w ws hs]
      cases ws with
      | nil =>
        simp only [spacedWords, List.flatten_cons, List.flatten_nil, List.append_nil] at ih ⊢
        rw [ih]
      | cons w2 ws2 =>
        simp only [spacedWords, List.flatten_cons, List.cons_append] at ih ⊢
        rw [ih]

theorem width_le_flatten (width : Str → ℚ) (hnonneg : ∀ a, 0 ≤ width a)
    (hadd : ∀ a b, width (a ++ b) = width a + width b) :
    ∀ (ws : List Str) (w : Str), w ∈ ws → width w ≤ width ws.flatten := by
  intro ws
  induction ws with
  | nil => intro w h; simp at h
  | cons a ws ih =>
    intro w h
    rw [List.flatten_cons, hadd]
    rcases List.mem_cons.mp h with h | h
    · subst h
      have := hnonneg ws.flatten
      linarith
    · have := ih w h
      have := hnonneg a
      linarith

theorem wordStep_fit (width : Str → ℚ) (colWidth : ℚ)
    (hadd : ∀ a b, width (a ++ b) = width a + width b)
    (done : List Str) (st : WrapState) (word : Str) (hw : width word ≤ colWidth)
    (hst : FitInv width colWidth done st) :
    FitInv width colWidth (done ++ [word]) (wordStep width colWidth st word) := by
  obtain ⟨h0, h1⟩ := hst
  unfold wordStep
  simp only [gt_iff_lt, not_lt.mpr hw, if_false]
  by_cases h2 : width word + st.currentlySize < colWidth
  · simp only [h2, if_true]
    constructor
    · intro hl
      dsimp only at hl ⊢
      obtain ⟨hs, _⟩ := h0 hl
      refine ⟨?_, by linarith⟩
      simp only [List.flatten_append, List.flatten_cons, List.flatten_nil,
        List.append_nil, hadd, hs]
    · intro hl
      dsimp only at hl ⊢
      have := h1 hl
      intro hcat
      exact this (List.append_eq_nil.mp hcat).1
  · simp only [h2, if_false]
    constructor
    · intro hl
      simp at hl
    · intro hl
      have hnil : st.lines = [] := by
        simp only [List.length_append, List.length_singleton] at hl
        exact List.length_eq_zero.mp (by omega)
      obtain ⟨_, hlt⟩ := h0 hnil
      intro hword
      dsimp only at hword
      apply h2
      rw [hword, width_nil width hadd]
      linarith

theorem foldl_wordStep_fit (width : Str → ℚ) (colWidth : ℚ)
    (hadd : ∀ a b, width (a ++ b) = width a + width b) :
    ∀ (ws done : List Str) (st : WrapState), (∀ w ∈ ws, width w ≤ colWidth) →
      FitInv width colWidth done st →
      FitInv width colWidth (done ++ ws) (ws.foldl (wordStep width colWidth) st) := by
  intro ws
  induction ws with
  | nil => intro done st _ hst; simpa using hst
  | cons w ws ih =>
    intro done st hle hst
    simp only [List.foldl_cons]
    have := ih (done ++ [w]) (wordStep width colWidth st w)
      (fun v hv => hle v (List.mem_cons_of_mem _ hv))
      (wordStep_fit width colWidth hadd done st w (hle w (List.mem_cons_self _ _)) hst)
    simpa using this

/-- A source line exactly as wide as the column contributes at least two lines. -/
theorem lineStep_exact_fit (width : Str → ℚ) (colWidth : ℚ) (line : Str)
    (hcw : 0 < colWidth) (hnonneg : ∀ a, 0 ≤ width a)
    (hadd : ∀ a b, width (a ++ b) = width a + width b)
    (hfit : width line = colWidth) :
    2 ≤ (lineStep width colWidth false [] line).length := by
  have hflat := flatten_spacedWords_Split line
  have hle : ∀ w ∈ spacedWords (Split line ' '), width w ≤ colWidth := by
    intro w hw
    have := width_le_flatten width hnonneg hadd _ w hw
    rw [hflat, hfit] at this
    exact this
  have hinv := foldl_wordStep_fit width colWidth hadd (spacedWords (Split line ' ')) []
    ⟨[], [], 0⟩ hle
    ⟨fun _ => ⟨by simp [width_nil width hadd], hcw⟩, fun h => by simp at h⟩
  unfold FitInv at hinv
  simp only [List.nil_append, hflat, hfit] at hinv
  obtain ⟨h0, h1⟩ := hinv
  unfold lineStep
  simp only [hfit, lt_irrefl, Bool.false_eq_true, or_self, if_false]
  generalize (spacedWords (Split line ' ')).foldl (wordStep width colWidth)
    ⟨[], [], 0⟩ = st at h0 h1
  have hne : st.lines ≠ [] := by
    intro hl
    obtain ⟨hs, hlt⟩ := h0 hl
    rw [hs] at hlt
    exact lt_irrefl _ hlt
  have hpos : 1 ≤ st.lines.length := by
    cases hl : st.lines with
    | nil => exact absurd hl hne
    | cons a b => simp
  by_cases hc : st.currentlyLine = []
  · simp only [hc, ne_eq, not_true_eq_false, if_false]
    by_contra hlt
    have hone : st.lines.length = 1 := by omega
    exact h1 hone hc
  · simp only [ne_eq, hc, not_false_eq_true, if_true, List.length_append,
      List.length_singleton]
    omega

/-- Claim C10 (strict fits test).  For every source line (a text the scanner
yields as its one line) whose measured width equals the column width exactly,
with a positive column width, no extrapolation and a width oracle that is
non-negative and additive over concatenation (so that the empty string has width
0): `getLines` does not return the line as one unchanged line; the line is
wrapped and the result has at least two lines. -/
theorem getLines_exact_fit (width : Str → ℚ) (text line : Str) (colWidth : ℚ)
    (hcw : 0 < colWidth) (hnonneg : ∀ a, 0 ≤ width a)
    (hadd : ∀ a b, width (a ++ b) = width a + width b)
    (hsrc : scanLines text = [line]) (hfit : width line = colWidth) :
    getLines width text colWidth false ≠ [line] ∧
      2 ≤ (getLines width text colWidth false).length := by
  have h2 : 2 ≤ (getLines width text colWidth false).length := by
    rw [getLines_single_source width text line colWidth false hsrc]
    exact lineStep_exact_fit width colWidth line hcw hnonneg hadd hfit
  refine ⟨?_, h2⟩
  intro h
  rw [h] at h2
  simp at h2

theorem charCount_nonneg (a : Str) : 0 ≤ charCount a := by
  simp [charCount]

/-- Witness of C10: "a b" is 3 wide; in a column of width 3 it is wrapped into
"a " and "b". -/
theorem getLines_exact_fit_witness :
    scanLines "a b".toList = ["a b".toList] ∧ charCount "a b".toList = 3 ∧
      (getLines charCount "a b".toList 3 false ≠ ["a b".toList] ∧
        2 ≤ (getLines charCount "a b".toList 3 false).length) :=
  ⟨by decide, by norm_num [charCount],
    getLines_exact_fit charCount "a b".toList "a b".toList 3 (by norm_num)
      charCount_nonneg charCount_append (by decide) (by norm_num [charCount])⟩

/-! ### C11: greedy packing -/

theorem fitPrefix_append (width : Str → ℚ) (colWidth : ℚ)
    (hadd : ∀ a b, width (a ++ b) = width a + width b) :
    ∀ (g ws : List Str) (sum : ℚ), fitPrefix width colWidth sum g = g →
      fitPrefix width colWidth sum (g ++ ws) =
        g ++ fitPrefix width colWidth (sum + width g.flatten) ws := by
  intro g
  induction g with
  | nil =>
    intro ws sum _
    simp [width_nil width hadd]
  | cons a g ih =>
    intro ws sum h
    rw [fitPrefix] at h
    by_cases hc : width a + sum < colWidth
    · simp only [hc, if_true, List.cons.injEq, true_and] at h
      rw [List.cons_append, fitPrefix]
      simp only [hc, if_true]
      rw [ih ws (sum + width a) h, List.flatten_cons, hadd, add_assoc]
      rfl
    · simp [hc] at h

theorem greedyPack_nil (width : Str → ℚ) (colWidth : ℚ) (fuel : Nat) :
    greedyPack width colWidth fuel [] = [] := by
  cases fuel <;> rfl

theorem greedyPack_succ_cons (width : Str → ℚ) (colWidth : ℚ) (fuel : Nat) (w : Str)
    (ws : List Str) :
    greedyPack width colWidth (fuel + 1) (w :: ws) =
      (fitPrefix width colWidth 0 (w :: ws)).flatten ::
        greedyPack width colWidth fuel
          ((w :: ws).drop (fitPrefix width colWidth 0 (w :: ws)).length) := rfl

theorem greedyPack_succ (width : Str → ℚ) (colWidth : ℚ) (fuel : Nat)
    (l : List Str) (hl : l ≠ []) :
    greedyPack width colWidth (fuel + 1) l =
      (fitPrefix width colWidth 0 l).flatten ::
        greedyPack width colWidth fuel
          (l.drop (fitPrefix width colWidth 0 l).length) := by
  cases l with
  | nil => exact absurd rfl hl
  | cons w ws => rfl

theorem fitPrefix_total (width : Str → ℚ) (colWidth : ℚ)
    (hadd : ∀ a b, width (a ++ b) = width a + width b) :
    ∀ (g : List Str) (sum : ℚ), g ≠ [] → fitPrefix width colWidth sum g = g →
      sum + width g.flatten < colWidth := by
  intro g
  induction g with
  | nil => intro sum h _; exact absurd rfl h
  | cons a g ih =>
    intro sum _ h
    rw [fitPrefix] at h
    by_cases hc : width a + sum < colWidth
    · simp only [hc, if_true, List.cons.injEq, true_and] at h
      rw [List.flatten_cons, hadd]
      by_cases hg : g = []
      · subst hg
        simp only [List.flatten_nil, width_nil width hadd]
        linarith
      · have := ih (sum + width a) hg h
        linarith
    · simp [hc] at h

/-- The word loop on words narrower than the column, started with a non-empty
accumulator that holds the words `g`: it completes the line of `g` and packs
the remaining words greedily. -/
theorem foldl_wordStep_greedy (width : Str → ℚ) (colWidth : ℚ)
    (hadd : ∀ a b, width (a ++ b) = width a + width b) :
    ∀ (ws g lines : List Str) (fuel : Nat), g.flatten ≠ [] →
      fitPrefix width colWidth 0 g = g → (∀ w ∈ ws, width w < colWidth) →
      ws.length + 1 ≤ fuel →
      (if (ws.foldl (wordStep width colWidth)
            ⟨lines, g.flatten, width g.flatten⟩).currentlyLine ≠ [] then
          (ws.foldl (wordStep width colWidth)
            ⟨lines, g.flatten, width g.flatten⟩).lines ++
            [(ws.foldl (wordStep width colWidth)
              ⟨lines, g.flatten, width g.flatten⟩).currentlyLine]
        else (ws.foldl (wordStep width colWidth)
            ⟨lines, g.flatten, width g.flatten⟩).lines) =
        lines ++ greedyPack width colWidth fuel (g ++ ws) := by
  intro ws
  induction ws with
  | nil =>
    intro g lines fuel hg hfit _ hfuel
    obtain ⟨f, rfl⟩ : ∃ f, fuel = f + 1 := ⟨fuel - 1, by omega⟩
    cases g with
    | nil => simp at hg
    | cons a g =>
      rw [List.append_nil, greedyPack_succ_cons, hfit, List.drop_length, greedyPack_nil]
      simp only [List.foldl_nil, ne_eq, hg, not_false_eq_true, if_true]
  | cons w ws ih =>
    intro g lines fuel hg hfit hlt hfuel
    obtain ⟨f, rfl⟩ : ∃ f, fuel = f + 1 := ⟨fuel - 1, by omega⟩
    have hgne : g ≠ [] := by
      intro h
      subst h
      simp at hg
    have hw : width w < colWidth := hlt w (List.mem_cons_self _ _)
    have hws : ∀ v ∈ ws, width v < colWidth :=
      fun v hv => hlt v (List.mem_cons_of_mem _ hv)
    have htot := fitPrefix_total width colWidth hadd g 0 hgne hfit
    simp only [zero_add] at htot
    simp only [List.foldl_cons]
    by_cases hc : width w + width g.flatten < colWidth
    · have hstep : wordStep width colWidth ⟨lines, g.flatten, width g.flatten⟩ w =
          ⟨lines, (g ++ [w]).flatten, width (g ++ [w]).flatten⟩ := by
        simp [wordStep, not_lt.mpr (le_of_lt hw), hc, hadd]
      have hfit2 : fitPrefix width colWidth 0 (g ++ [w]) = g ++ [w] := by
        rw [fitPrefix_append width colWidth hadd g [w] 0 hfit]
        simp [fitPrefix, hc]
      have hg2 : (g ++ [w]).flatten ≠ [] := by
        simp only [List.flatten_append, ne_eq, List.append_eq_nil, not_and]
        intro h
        exact absurd h hg
      rw [hstep, ih (g ++ [w]) lines (f + 1) hg2 hfit2 hws (by simp at hfuel ⊢; omega)]
      simp
    · have hwne : w ≠ [] := by
        intro h
        apply hc
        rw [h, width_nil width hadd]
        linarith
      have hstep : wordStep width colWidth ⟨lines, g.flatten, width g.flatten⟩ w =
          ⟨lines ++ [g.flatten], [w].flatten, width [w].flatten⟩ := by
        simp [wordStep, not_lt.mpr (le_of_lt hw), hc]
      have hfit2 : fitPrefix width colWidth 0 [w] = [w] := by
        simp [fitPrefix, hw]
      have hpre : fitPrefix width colWidth 0 (g ++ w :: ws) = g := by
        rw [fitPrefix_append width colWidth hadd g (w :: ws) 0 hfit]
        simp [fitPrefix, hc]
      rw [hstep, ih [w] (lines ++ [g.flatten]) f (by simpa using hwne) hfit2 hws
        (by simp at hfuel ⊢; omega)]
      rw [greedyPack_succ width colWidth f (g ++ w :: ws) (by simp), hpre]
      simp

theorem spacedWords_Split_cons (line : Str) (hne : line ≠ []) :
    ∃ t ws, spacedWords (Split line ' ') = t :: ws ∧ t ≠ [] := by
  have hflat := flatten_spacedWords_Split line
  cases hsp : Split line ' ' with
  | nil => exact absurd hsp (Split_ne_nil line ' ')
  | cons w ws =>
    cases ws with
    | nil =>
      rw [hsp] at hflat
      simp only [spacedWords, List.flatten_cons, List.flatten_nil, List.append_nil] at hflat
      exact ⟨w, [], rfl, by rw [hflat]; exact hne⟩
    | cons w2 ws2 =>
      exact ⟨w ++ [' '], spacedWords (w2 :: ws2), rfl, by simp⟩

/-- A source line all of whose words are narrower than the column is packed
greedily. -/
theorem lineStep_greedy (width : Str → ℚ) (colWidth : ℚ) (line : Str)
    (hcw : 0 < colWidth) (hadd : ∀ a b, width (a ++ b) = width a + width b)
    (hwrap : colWidth ≤ width line)
    (hfit : ∀ w ∈ spacedWords (Split line ' '), width w < colWidth) :
    lineStep width colWidth false [] line =
      greedyLines width colWidth (spacedWords (Split line ' ')) := by
  have hne : line ≠ [] := by
    intro h
    rw [h, width_nil width hadd] at hwrap
    exact absurd hcw (not_lt.mpr hwrap)
  obtain ⟨t, ws, hts, htne⟩ := spacedWords_Split_cons line hne
  rw [hts] at hfit ⊢
  have ht : width t < colWidth := hfit t (List.mem_cons_self _ _)
  have hstep : wordStep width colWidth ⟨[], [], 0⟩ t =
      ⟨[], [t].flatten, width [t].flatten⟩ := by
    simp [wordStep, not_lt.mpr (le_of_lt ht), ht]
  have h := foldl_wordStep_greedy width colWidth hadd ws [t] [] (ws.length + 1)
    (by simpa using htne) (by simp [fitPrefix, ht])
    (fun v hv => hfit v (List.mem_cons_of_mem _ hv)) (le_refl _)
  unfold lineStep
  simp only [not_lt.mpr hwrap, Bool.false_eq_true, or_self, if_false, hts,
    List.foldl_cons, hstep]
  rw [h]
  simp [greedyLines]

theorem getLines_a_bc_d :
    getLines charCount "a bc d".toList 3 false =
      ["a ".toList, "bc ".toList, "d".toList] := by
  simp [getLines, scanLines, scanFrom, MaxScanTokenSize, lineStep, charCount, dropCR,
    Split, spacedWords, wordStep]
  norm_num

theorem greedyLines_a_bc_d :
    greedyLines charCount 3 (spacedWords (Split "a bc d".toList ' ')) =
      ["a ".toList, [], []] := by
  simp [greedyLines, greedyPack, fitPrefix, charCount, Split, spacedWords]
  norm_num [fitPrefix, greedyPack, charCount]

/-- Claim C11 as stated fails.  In "a bc d" with width = character count and a
column of width 3 no word is wider than the column, the first word is narrower
than the column and the line, 6 wide, is wrapped.  `getLines` returns "a ",
"bc ", "d".  After the first line the remaining words are "bc " and "d", and no
prefix of them with at least one word has a summed width below 3: the word
"bc " is exactly as wide as the column.  The code gives such a word a line of
its own; packing "the same way" gives an empty prefix. -/
theorem getLines_not_greedy_at_tie :
    ((∀ w ∈ spacedWords (Split "a bc d".toList ' '), charCount w ≤ 3) ∧
        charCount "a ".toList < 3 ∧ (3 : ℚ) ≤ charCount "a bc d".toList) ∧
      getLines charCount "a bc d".toList 3 false =
        ["a ".toList, "bc ".toList, "d".toList] ∧
      fitPrefix charCount 3 0 ["bc ".toList, "d".toList] = [] ∧
      getLines charCount "a bc d".toList 3 false ≠
        greedyLines charCount 3 (spacedWords (Split "a bc d".toList ' ')) := by
  refine ⟨⟨?_, by norm_num [charCount], by norm_num [charCount]⟩, getLines_a_bc_d, ?_, ?_⟩
  · intro w hw
    simp [Split, spacedWords] at hw
    rcases hw with h | h | h <;> subst h <;> norm_num [charCount]
  · norm_num [fitPrefix, charCount]
  · rw [getLines_a_bc_d, greedyLines_a_bc_d]
    decide

/-- Claim C11, amended (greedy packing).  For every source line on the wrapping
path (width at least the column width, column width positive, no
extrapolation, additive width oracle) in which every word, with its trailing
space when it is not the last one, is narrower than the column: the lines
`getLines` returns are the greedy packing of the words; the first line is the
longest prefix of the words whose summed widths stay below the column width,
and the remaining words are packed the same way. -/
theorem getLines_greedy (width : Str → ℚ) (text line : Str) (colWidth : ℚ)
    (hcw : 0 < colWidth) (hadd : ∀ a b, width (a ++ b) = width a + width b)
    (hsrc : scanLines text = [line]) (hwrap : colWidth ≤ width line)
    (hfit : ∀ w ∈ spacedWords (Split line ' '), width w < colWidth) :
    getLines width text colWidth false =
        greedyLines width colWidth (spacedWords (Split line ' ')) ∧
      (getLines width text colWidth false).head? =
        some (fitPrefix width colWidth 0 (spacedWords (Split line ' '))).flatten := by
  have h : getLines width text colWidth false =
      greedyLines width colWidth (spacedWords (Split line ' ')) := by
    rw [getLines_single_source width text line colWidth false hsrc]
    exact lineStep_greedy width colWidth line hcw hadd hwrap hfit
  refine ⟨h, ?_⟩
  rw [h]
  have hne : line ≠ [] := by
    intro h0
    rw [h0, width_nil width hadd] at hwrap
    exact absurd hcw (not_lt.mpr hwrap)
  obtain ⟨t, ws, hts, -⟩ := spacedWords_Split_cons line hne
  rw [hts]
  rfl

theorem greedyLines_quick_brown_fox :
    greedyLines charCount 12 (spacedWords (Split "The quick brown fox".toList ' ')) =
      ["The quick ".toList, "brown fox".toList] := by
  simp [greedyLines, greedyPack, fitPrefix, charCount, Split, spacedWords]
  norm_num [fitPrefix, greedyPack, charCount]

/-- Witness of C11: "The quick brown fox" with width = character count in a
column of width 12 yields "The quick " and "brown fox". -/
theorem getLines_greedy_witness :
    (∀ w ∈ spacedWords (Split "The quick brown fox".toList ' '), charCount w < 12) ∧
      getLines charCount "The quick brown fox".toList 12 false =
        ["The quick ".toList, "brown fox".toList] :=
  have hfit : ∀ w ∈ spacedWords (Split "The quick brown fox".toList ' '),
      charCount w < 12 := by
    intro w hw
    simp [Split, spacedWords] at hw
    rcases hw with h | h | h | h <;> subst h <;> norm_num [charCount]
  ⟨hfit,
    (getLines_greedy charCount "The quick brown fox".toList
      "The quick brown fox".toList 12 (by norm_num) charCount_append (by decide)
      (by norm_num [charCount]) hfit).1.trans greedyLines_quick_brown_fox⟩

/-! ### C12: normalizing twice -/

theorem textToUnicode_classic (pdf : Fpdf) (txt : Str) (textProp : props.Text)
    (h : isClassicFamily textProp.Family) :
    textToUnicode pdf txt textProp = pdf.translator txt := by
  unfold isClassicFamily at h
  simp [textToUnicode, h]

theorem textToUnicode_other (pdf : Fpdf) (txt : Str) (textProp : props.Text)
    (h : ¬ isClassicFamily textProp.Family) :
    textToUnicode pdf txt textProp = txt := by
  unfold isClassicFamily at h
  simp [textToUnicode, h]

/-- Claim C12 as stated fails.  With the family Arial the text "caf" followed by
the bytes C3 A9 is normalized to "caf" followed by the byte E9.  Normalizing
that again gives "caf" followed by a full stop: the byte E9 alone is not valid
UTF-8 and the translator cannot translate it.  `textToUnicode` applies the
translator each time it is called. -/
theorem textToUnicode_not_idempotent :
    textToUnicode (unitPdf 10 10) "caf\xc3\xa9".toList
        ⟨consts.Family.Arial, consts.Style.Normal, 10, consts.Align.Left, false, 0,
          ⟨0, 0, 0⟩⟩ = "caf\xe9".toList ∧
      textToUnicode (unitPdf 10 10)
        (textToUnicode (unitPdf 10 10) "caf\xc3\xa9".toList
          ⟨consts.Family.Arial, consts.Style.Normal, 10, consts.Align.Left, false, 0,
            ⟨0, 0, 0⟩⟩)
        ⟨consts.Family.Arial, consts.Style.Normal, 10, consts.Align.Left, false, 0,
          ⟨0, 0, 0⟩⟩ = "caf.".toList ∧
      textToUnicode (unitPdf 10 10)
        (textToUnicode (unitPdf 10 10) "caf\xc3\xa9".toList
          ⟨consts.Family.Arial, consts.Style.Normal, 10, consts.Align.Left, false, 0,
            ⟨0, 0, 0⟩⟩)
        ⟨consts.Family.Arial, consts.Style.Normal, 10, consts.Align.Left, false, 0,
          ⟨0, 0, 0⟩⟩ ≠
        textToUnicode (unitPdf 10 10) "caf\xc3\xa9".toList
          ⟨consts.Family.Arial, consts.Style.Normal, 10, consts.Align.Left, false, 0,
            ⟨0, 0, 0⟩⟩ := by
  have h1 : textToUnicode (unitPdf 10 10) "caf\xc3\xa9".toList
      ⟨consts.Family.Arial, consts.Style.Normal, 10, consts.Align.Left, false, 0,
        ⟨0, 0, 0⟩⟩ = "caf\xe9".toList := by
    rw [textToUnicode_classic _ _ _ (Or.inl rfl)]
    decide
  have h2 : textToUnicode (unitPdf 10 10) "caf\xe9".toList
      ⟨consts.Family.Arial, consts.Style.Normal, 10, consts.Align.Left, false, 0,
        ⟨0, 0, 0⟩⟩ = "caf.".toList := by
    rw [textToUnicode_classic _ _ _ (Or.inl rfl)]
    decide
  rw [h1, h2]
  exact ⟨rfl, rfl, by decide⟩

theorem translateEAcute_ascii :
    ∀ (s : Str), (∀ c ∈ s, c.toNat < 128) → translateEAcute s = s := by
  intro s
  induction s with
  | nil => intro _; rfl
  | cons c cs ih =>
    intro h
    have hc : c.toNat < 128 := h c (List.mem_cons_self _ _)
    have hcs : ∀ d ∈ cs, d.toNat < 128 := fun d hd => h d (List.mem_cons_of_mem _ hd)
    cases cs with
    | nil => simp [translateEAcute, hc]
    | cons d rest =>
      have hne : c ≠ '\xc3' := by
        intro e
        rw [e] at hc
        exact absurd hc (by decide)
      rw [translateEAcute]
      simp only [hne, false_and, if_false, hc, if_true]
      rw [ih hcs]

/-- Claim C12, amended (idempotence of normalization).  For every text `t`, every
translator and every font family outside the allow-list Arial, Helvetica,
Symbol, ZapBats, Courier, `textToUnicode` returns `t` unchanged, so normalizing
the normalized text gives the normalized text.  For a family of the allow-list
`textToUnicode` applies the translator on every call: the normalized text is
the translation of `t`, and normalizing it again translates it a second time.
So for every family the equation holds for a text of bytes below 0x80 when the
translator keeps such texts unchanged. -/
theorem textToUnicode_idempotent (pdf : Fpdf) (t : Str) (textProp : props.Text) :
    (¬ isClassicFamily textProp.Family →
        textToUnicode pdf t textProp = t ∧
          textToUnicode pdf (textToUnicode pdf t textProp) textProp =
            textToUnicode pdf t textProp) ∧
      (isClassicFamily textProp.Family →
        textToUnicode pdf t textProp = pdf.translator t ∧
          textToUnicode pdf (textToUnicode pdf t textProp) textProp =
            pdf.translator (pdf.translator t)) ∧
      ((∀ s : Str, (∀ c ∈ s, c.toNat < 128) → pdf.translator s = s) →
        (∀ c ∈ t, c.toNat < 128) →
        textToUnicode pdf (textToUnicode pdf t textProp) textProp =
          textToUnicode pdf t textProp) := by
  refine ⟨?_, ?_, ?_⟩
  · intro hf
    simp only [textToUnicode_other _ _ _ hf, and_self]
  · intro hf
    simp only [textToUnicode_classic _ _ _ hf, and_self]
  · intro hascii ht
    by_cases hf : isClassicFamily textProp.Family
    · simp only [textToUnicode_classic _ _ _ hf, hascii t ht]
    · simp only [textToUnicode_other _ _ _ hf]

/-- Witness of C12: with a custom family, outside the allow-list, the text "caf"
followed by C3 A9 passes through unchanged, once and twice; with the family
Arial the text "cafe", all of whose bytes are below 0x80, is normalized to
itself, once and twice. -/
theorem textToUnicode_idempotent_witness :
    (¬ isClassicFamily (consts.Family.Custom "dejavu") ∧
        textToUnicode (unitPdf 10 10) "caf\xc3\xa9".toList
          ⟨consts.Family.Custom "dejavu", consts.Style.Normal, 10, consts.Align.Left,
            false, 0, ⟨0, 0, 0⟩⟩ = "caf\xc3\xa9".toList ∧
        textToUnicode (unitPdf 10 10)
          (textToUnicode (unitPdf 10 10) "caf\xc3\xa9".toList
            ⟨consts.Family.Custom "dejavu", consts.Style.Normal, 10, consts.Align.Left,
              false, 0, ⟨0, 0, 0⟩⟩)
          ⟨consts.Family.Custom "dejavu", consts.Style.Normal, 10, consts.Align.Left,
            false, 0, ⟨0, 0, 0⟩⟩ =
          textToUnicode (unitPdf 10 10) "caf\xc3\xa9".toList
            ⟨consts.Family.Custom "dejavu", consts.Style.Normal, 10, consts.Align.Left,
              false, 0, ⟨0, 0, 0⟩⟩) ∧
      ((∀ c ∈ "cafe".toList, c.toNat < 128) ∧
        textToUnicode (unitPdf 10 10) "cafe".toList
          ⟨consts.Family.Arial, consts.Style.Normal, 10, consts.Align.Left, false, 0,
            ⟨0, 0, 0⟩⟩ = "cafe".toList ∧
        textToUnicode (unitPdf 10 10)
          (textToUnicode (unitPdf 10 10) "cafe".toList
            ⟨consts.Family.Arial, consts.Style.Normal, 10, consts.Align.Left, false, 0,
              ⟨0, 0, 0⟩⟩)
          ⟨consts.Family.Arial, consts.Style.Normal, 10, consts.Align.Left, false, 0,
            ⟨0, 0, 0⟩⟩ =
          textToUnicode (unitPdf 10 10) "cafe".toList
            ⟨consts.Family.Arial, consts.Style.Normal, 10, consts.Align.Left, false, 0,
              ⟨0, 0, 0⟩⟩) :=
  have hf : ¬ isClassicFamily (consts.Family.Custom "dejavu") := by
    simp [isClassicFamily]
  have ha : ∀ c ∈ "cafe".toList, c.toNat < 128 := by decide
  ⟨⟨hf,
      (textToUnicode_idempotent (unitPdf 10 10) "caf\xc3\xa9".toList
        ⟨consts.Family.Custom "dejavu", consts.Style.Normal, 10, consts.Align.Left,
          false, 0, ⟨0, 0, 0⟩⟩).1 hf⟩,
    ⟨ha, by decide,
      (textToUnicode_idempotent (unitPdf 10 10) "cafe".toList
        ⟨consts.Family.Arial, consts.Style.Normal, 10, consts.Align.Left, false, 0,
          ⟨0, 0, 0⟩⟩).2.2 translateEAcute_ascii ha⟩⟩

/-! ### C13: empty lines -/

theorem getLines_ab_tie :
    getLines charCount "ab".toList 2 false = [[], "ab".toList] := by
  simp [getLines, scanLines, scanFrom, MaxScanTokenSize, lineStep, charCount, dropCR,
    Split, spacedWords, wordStep]

/-- Claim C13 (no spurious empty line), evaluated where the code departs from it.
The source line "ab" is 2 wide with width = character count; in a column of
width 2 it goes through the word loop.  Its only word is not wider than the
column and does not fit beside the empty accumulator (2 + 0 < 2 fails), so the
else branch appends the accumulator to the result although it is empty: the
result is the empty string followed by "ab". -/
theorem getLines_emits_empty_line :
    ((0 : ℚ) < 2 ∧ (2 : ℚ) ≤ charCount "ab".toList ∧
        scanLines "ab".toList = ["ab".toList]) ∧
      getLines charCount "ab".toList 2 false = [[], "ab".toList] ∧
      ([] : Str) ∈ getLines charCount "ab".toList 2 false := by
  refine ⟨⟨by norm_num, by norm_num [charCount], by decide⟩, getLines_ab_tie, ?_⟩
  rw [getLines_ab_tie]
  simp

/-! ### C14: hard newlines -/

theorem scanFrom_append_newline (maxTok : Nat) (t2 : Str) :
    ∀ (t1 cur h : Str) (t : List Str), Split t1 '\n' = h :: t →
      (∀ seg ∈ (cur ++ h) :: t, seg.length < maxTok) →
      t1.getLast? ≠ some '\n' → (cur ≠ [] ∨ t1 ≠ []) →
      scanFrom maxTok cur (t1 ++ '\n' :: t2) =
        scanFrom maxTok cur t1 ++ scanFrom maxTok [] t2 := by
  intro t1
  induction t1 with
  | nil =>
    intro cur h t hs hlim _ hne
    simp [Split] at hs
    obtain ⟨rfl, rfl⟩ := hs
    have hc : cur ≠ [] := by
      rcases hne with h | h
      · exact h
      · exact absurd rfl h
    have hl : cur.length < maxTok := by
      have := hlim (cur ++ []) (List.mem_cons_self _ _)
      simpa using this
    simp [scanFrom, hc, Nat.not_le.mpr hl]
  | cons c r ih =>
    intro cur h t hs hlim hlast _
    obtain ⟨h1, t1, hr⟩ : ∃ h1 t1, Split r '\n' = h1 :: t1 := by
      cases hsp : Split r '\n' with
      | nil => exact absurd hsp (Split_ne_nil r '\n')
      | cons a b => exact ⟨a, b, rfl⟩
    have hrlast : r.getLast? ≠ some '\n' := by
      cases r with
      | nil => simp
      | cons d r2 => simpa [List.getLast?_cons_cons] using hlast
    by_cases hc : c = '\n'
    · subst hc
      rw [Split_cons_sep, hr] at hs
      simp only [List.cons.injEq] at hs
      obtain ⟨rfl, rfl⟩ := hs
      have hl : cur.length < maxTok := by
        have := hlim (cur ++ []) (List.mem_cons_self _ _)
        simpa using this
      have hrne : r ≠ [] := by
        intro h0
        subst h0
        simp at hlast
      rw [List.cons_append, scanFrom, scanFrom]
      simp only [if_true, Nat.not_le.mpr hl, if_false, List.cons_append]
      rw [ih [] h1 t1 hr (by
        intro seg hseg
        exact hlim seg (List.mem_cons_of_mem _ (by simpa using hseg))) hrlast
        (Or.inr hrne)]
    · rw [Split_cons_ne c r '\n' hc h1 t1 hr] at hs
      simp only [List.cons.injEq] at hs
      obtain ⟨rfl, rfl⟩ := hs
      rw [List.cons_append, scanFrom, scanFrom]
      simp only [hc, if_false]
      exact ih (cur ++ [c]) h1 t1 hr (by simpa using hlim) hrlast (Or.inl (by simp))

theorem scanLines_append_newline (t1 t2 : Str) (hne : t1 ≠ [])
    (hnl : t1.getLast? ≠ some '\n')
    (hlim : ∀ seg ∈ Split t1 '\n', seg.length < MaxScanTokenSize) :
    scanLines (t1 ++ ['\n'] ++ t2) = scanLines t1 ++ scanLines t2 := by
  obtain ⟨h1, ts, hr⟩ : ∃ h1 ts, Split t1 '\n' = h1 :: ts := by
    cases hsp : Split t1 '\n' with
    | nil => exact absurd hsp (Split_ne_nil t1 '\n')
    | cons a b => exact ⟨a, b, rfl⟩
  rw [hr] at hlim
  have := scanFrom_append_newline MaxScanTokenSize t2 t1 [] h1 ts hr
    (by simpa using hlim) hnl (Or.inr hne)
  simpa [scanLines] using this

theorem scanFrom_long_first (maxTok : Nat) (t2 : Str) :
    ∀ (rest cur : Str), '\n' ∉ rest → maxTok ≤ (cur ++ rest).length →
      scanFrom maxTok cur (rest ++ '\n' :: t2) = [] := by
  intro rest
  induction rest with
  | nil =>
    intro cur _ hlen
    simp only [List.append_nil] at hlen
    simp [scanFrom, hlen]
  | cons c r ih =>
    intro cur h hlen
    have hc : c ≠ '\n' := fun e => h (by simp [e])
    have hr : '\n' ∉ r := fun e => h (List.mem_cons_of_mem _ e)
    rw [List.cons_append, scanFrom]
    simp only [hc, if_false]
    exact ih (cur ++ [c]) hr (by simpa using hlen)

theorem scanLines_replicate_long_then (n : Nat) (hn : MaxScanTokenSize ≤ n) (t2 : Str) :
    scanLines (List.replicate n 'a' ++ ['\n'] ++ t2) = [] := by
  have := scanFrom_long_first MaxScanTokenSize t2 (List.replicate n 'a') []
    (replicate_a_no_newline n) (by simpa using hn)
  simpa [scanLines] using this

theorem getLines_b : getLines charCount "b".toList 10 true = ["b".toList] := by
  rw [getLines_true_eq_scanLines]
  decide

/-- Claim C14 as stated fails.  Let `t1` be 65536 letters `a` (non-empty, not
ending in a newline) and `t2` be "b".  The scanner gives up on the first line
of `t1`, newline, `t2`, which does not fit its buffer, and `getLines` returns no
line at all; but `getLines` of `t1` followed by `getLines` of `t2` is the one
line "b". -/
theorem getLines_append_newline_fails :
    List.replicate 65536 'a' ≠ [] ∧
      (List.replicate 65536 'a').getLast? ≠ some '\n' ∧
      getLines charCount (List.replicate 65536 'a' ++ ['\n'] ++ "b".toList) 10 true = [] ∧
      getLines charCount (List.replicate 65536 'a') 10 true ++
        getLines charCount "b".toList 10 true = ["b".toList] ∧
      getLines charCount (List.replicate 65536 'a' ++ ['\n'] ++ "b".toList) 10 true ≠
        getLines charCount (List.replicate 65536 'a') 10 true ++
          getLines charCount "b".toList 10 true := by
  have h1 : getLines charCount (List.replicate 65536 'a' ++ ['\n'] ++ "b".toList) 10
      true = [] := by
    rw [getLines_true_eq_scanLines]
    exact scanLines_replicate_long_then 65536 (by decide) _
  have h2 : getLines charCount (List.replicate 65536 'a') 10 true = [] := by
    rw [getLines_true_eq_scanLines]
    exact scanLines_long_line
  refine ⟨?_, ?_, h1, ?_, ?_⟩
  · intro h
    have := congrArg List.length h
    rw [List.length_replicate] at this
    exact absurd this (by decide)
  · intro h
    have hm := List.mem_of_getLast?_eq_some h
    exact replicate_a_no_newline 65536 hm
  · rw [h2, getLines_b]
    rfl
  · rw [h1, h2, getLines_b]
    decide

/-- Claim C14, amended (hard newlines are processed independently).  For every
column width, extrapolate flag and width oracle, and for all texts `t1`, `t2`
where `t1` is non-empty, does not end with a newline and has no line of
`bufio.MaxScanTokenSize` bytes or more: `getLines` of `t1`, newline, `t2` is
`getLines` of `t1` followed by `getLines` of `t2`. -/
theorem getLines_append_newline (width : Str → ℚ) (colWidth : ℚ) (extrapolate : Bool)
    (t1 t2 : Str) (hne : t1 ≠ []) (hnl : t1.getLast? ≠ some '\n')
    (hlim : ∀ seg ∈ Split t1 '\n', seg.length < MaxScanTokenSize) :
    getLines width (t1 ++ ['\n'] ++ t2) colWidth extrapolate =
      getLines width t1 colWidth extrapolate ++
        getLines width t2 colWidth extrapolate := by
  simp only [getLines_eq_join, scanLines_append_newline t1 t2 hne hnl hlim,
    List.map_append, List.flatten_append]

/-- Witness of C14: "ab" and "c d" in a column of width 2 with width = character
count. -/
theorem getLines_append_newline_witness :
    (∀ seg ∈ Split "ab".toList '\n', seg.length < MaxScanTokenSize) ∧
      getLines charCount ("ab".toList ++ ['\n'] ++ "c d".toList) 2 false =
        getLines charCount "ab".toList 2 false ++
          getLines charCount "c d".toList 2 false :=
  ⟨by decide,
    getLines_append_newline charCount 2 false "ab".toList "c d".toList (by decide)
      (by decide) (by decide)⟩

/-! ### C15: fast path -/

theorem getLines_ab_cr_wide :
    getLines charCount "ab\r".toList 10 false = ["ab".toList] := by
  simp [getLines, scanLines, scanFrom, MaxScanTokenSize, lineStep, charCount, dropCR]
  norm_num

/-- Claim C15 as stated fails.  The text "ab" followed by a carriage return is
non-empty, has no newline and is 3 wide in a column of width 10, yet `getLines`
returns the line "ab": the scanner removes the trailing carriage return.  And a
text of 65536 letters `a` in a column of width 70000 gives no line at all: the
line does not fit the buffer of the scanner. -/
theorem getLines_fast_path_not_verbatim :
    ('\n' ∉ "ab\r".toList ∧ charCount "ab\r".toList < 10 ∧
        getLines charCount "ab\r".toList 10 false = ["ab".toList] ∧
        getLines charCount "ab\r".toList 10 false ≠ ["ab\r".toList]) ∧
      ('\n' ∉ List.replicate 65536 'a' ∧
        charCount (List.replicate 65536 'a') < 70000 ∧
        getLines charCount (List.replicate 65536 'a') 70000 false = [] ∧
        getLines charCount (List.replicate 65536 'a') 70000 false ≠
          [List.replicate 65536 'a']) := by
  have hlong : getLines charCount (List.replicate 65536 'a') 70000 false = [] := by
    unfold getLines
    rw [scanLines_long_line]
    rfl
  refine ⟨⟨by decide, by norm_num [charCount], getLines_ab_cr_wide, ?_⟩,
    replicate_a_no_newline 65536, ?_, hlong, ?_⟩
  · rw [getLines_ab_cr_wide]
    decide
  · simp only [charCount, List.length_replicate]
    norm_num
  · rw [hlong]
    exact (List.cons_ne_nil _ _).symm

/-- Claim C15, amended (fast path).  For every non-empty text without newline
that does not end in a carriage return and is shorter than
`bufio.MaxScanTokenSize`, and every column width larger than the measured width
of the text, `getLines` returns exactly the text as its one line, unchanged,
for either value of extrapolate. -/
theorem getLines_fast_path (width : Str → ℚ) (text : Str) (colWidth : ℚ)
    (extrapolate : Bool)
    (hne : text ≠ []) (hnl : '\n' ∉ text)
    (hcr : text.getLast? ≠ some '\r') (hlen : text.length < MaxScanTokenSize)
    (hfit : width text < colWidth) :
    getLines width text colWidth extrapolate = [text] := by
  rw [getLines_single_source width text text colWidth extrapolate
    (scanLines_single text hne hnl hcr hlen)]
  simp [lineStep, hfit]

/-- Witness of C15: "The quick brown fox" with width = character count in a
column of width 20. -/
theorem getLines_fast_path_witness :
    charCount "The quick brown fox".toList < 20 ∧
      getLines charCount "The quick brown fox".toList 20 false =
        ["The quick brown fox".toList] :=
  ⟨by norm_num [charCount],
    getLines_fast_path charCount "The quick brown fox".toList 20 false
      (by decide) (by decide) (by decide) (by decide) (by norm_num [charCount])⟩

/-! ### C16: round trip -/

theorem wordStep_flatten (width : Str → ℚ) (colWidth : ℚ) (st : WrapState)
    (word : Str) (hw : width word ≤ colWidth) :
    ((wordStep width colWidth st word).lines ++
        [(wordStep width colWidth st word).currentlyLine]).flatten =
      (st.lines ++ [st.currentlyLine]).flatten ++ word := by
  unfold wordStep
  simp only [gt_iff_lt, not_lt.mpr hw, if_false]
  by_cases h2 : width word + st.currentlySize < colWidth
  · simp [h2]
  · simp [h2]

theorem foldl_wordStep_flatten (width : Str → ℚ) (colWidth : ℚ) :
    ∀ (ws : List Str) (st : WrapState), (∀ w ∈ ws, width w ≤ colWidth) →
      ((ws.foldl (wordStep width colWidth) st).lines ++
          [(ws.foldl (wordStep width colWidth) st).currentlyLine]).flatten =
        (st.lines ++ [st.currentlyLine]).flatten ++ ws.flatten := by
  intro ws
  induction ws with
  | nil => intro st _; simp
  | cons w ws ih =>
    intro st hle
    simp only [List.foldl_cons, List.flatten_cons]
    rw [ih _ (fun v hv => hle v (List.mem_cons_of_mem _ hv)),
      wordStep_flatten width colWidth st w (hle w (List.mem_cons_self _ _)),
      List.append_assoc]

/-- The lines a source line without too wide a word contributes, put together,
are the source line. -/
theorem lineStep_flatten (width : Str → ℚ) (colWidth : ℚ) (line : Str)
    (hfit : ∀ w ∈ spacedWords (Split line ' '), width w ≤ colWidth) :
    (lineStep width colWidth false [] line).flatten = line := by
  unfold lineStep
  by_cases h1 : width line < colWidth
  · simp [h1]
  · simp only [h1, Bool.false_eq_true, or_self, if_false]
    have h := foldl_wordStep_flatten width colWidth (spacedWords (Split line ' '))
      ⟨[], [], 0⟩ hfit
    simp only [List.nil_append, List.flatten_cons, List.flatten_nil, List.append_nil,
      flatten_spacedWords_Split] at h
    by_cases hc : ((spacedWords (Split line ' ')).foldl (wordStep width colWidth)
        ⟨[], [], 0⟩).currentlyLine = []
    · simp only [hc, ne_eq, not_true_eq_false, if_false]
      rw [hc] at h
      simpa using h
    · simp only [ne_eq, hc, not_false_eq_true, if_true]
      exact h

/-- Claim C16 (round trip when no word overflows).  For every source line (a
text the scanner yields as its one line), every column width and every width
oracle such that no word of the line, with its trailing space when it is not
the last word, is wider than the column: without extrapolation the lines
`getLines` returns, concatenated in order, are the source line character for
character.  This holds on the wrapping path and on the fast path alike. -/
theorem getLines_round_trip (width : Str → ℚ) (text line : Str) (colWidth : ℚ)
    (hsrc : scanLines text = [line])
    (hfit : ∀ w ∈ spacedWords (Split line ' '), width w ≤ colWidth) :
    (getLines width text colWidth false).flatten = line := by
  rw [getLines_single_source width text line colWidth false hsrc]
  exact lineStep_flatten width colWidth line hfit

/-- Witness of C16: "The quick brown fox" in a column of width 12 with width =
character count; the lines are "The quick " and "brown fox". -/
theorem getLines_round_trip_witness :
    (12 : ℚ) ≤ charCount "The quick brown fox".toList ∧
      getLines charCount "The quick brown fox".toList 12 false =
        ["The quick ".toList, "brown fox".toList] ∧
      (getLines charCount "The quick brown fox".toList 12 false).flatten =
        "The quick brown fox".toList :=
  ⟨by norm_num [charCount], getLines_quick_brown_fox,
    getLines_round_trip charCount "The quick brown fox".toList
      "The quick brown fox".toList 12 (by decide) (by
        intro w hw
        simp [Split, spacedWords] at hw
        rcases hw with h | h | h | h <;> subst h <;> norm_num [charCount])⟩

/-! ### C17: wrapping never loses a source line -/

theorem wordStep_keeps (width : Str → ℚ) (colWidth : ℚ) (done : List Str)
    (st : WrapState) (word : Str)
    (hst : st.lines = [] → st.currentlyLine = done.flatten) :
    (wordStep width colWidth st word).lines = [] →
      (wordStep width colWidth st word).currentlyLine = (done ++ [word]).flatten := by
  unfold wordStep
  by_cases h1 : width word > colWidth
  · simp [h1]
  · by_cases h2 : width word + st.currentlySize < colWidth
    · simp only [h1, h2, if_true, if_false]
      intro hl
      rw [hst hl]
      simp
    · simp [h1, h2]

theorem foldl_wordStep_keeps (width : Str → ℚ) (colWidth : ℚ) :
    ∀ (ws done : List Str) (st : WrapState),
      (st.lines = [] → st.currentlyLine = done.flatten) →
      (ws.foldl (wordStep width colWidth) st).lines = [] →
        (ws.foldl (wordStep width colWidth) st).currentlyLine = (done ++ ws).flatten := by
  intro ws
  induction ws with
  | nil => intro done st hst hl; simpa using hst hl
  | cons w ws ih =>
    intro done st hst
    simp only [List.foldl_cons]
    have := ih (done ++ [w]) (wordStep width colWidth st w)
      (wordStep_keeps width colWidth done st w hst)
    simpa using this

/-- Every source line contributes at least one line. -/
theorem lineStep_length_pos (width : Str → ℚ) (colWidth : ℚ) (line : Str)
    (hcw : 0 < colWidth) (h0 : width [] = 0) :
    1 ≤ (lineStep width colWidth false [] line).length := by
  unfold lineStep
  by_cases h1 : width line < colWidth
  · simp [h1]
  · simp only [h1, Bool.false_eq_true, or_self, if_false]
    have hne : line ≠ [] := by
      intro h
      rw [h, h0] at h1
      exact h1 hcw
    have hk := foldl_wordStep_keeps width colWidth (spacedWords (Split line ' ')) []
      ⟨[], [], 0⟩ (fun _ => rfl)
    simp only [List.nil_append, flatten_spacedWords_Split] at hk
    generalize (spacedWords (Split line ' ')).foldl (wordStep width colWidth)
      ⟨[], [], 0⟩ = st at hk
    by_cases hl : st.lines = []
    · have hc : st.currentlyLine ≠ [] := by
        rw [hk hl]
        exact hne
      simp [hc]
    · have hpos : 1 ≤ st.lines.length := by
        cases hs : st.lines with
        | nil => exact absurd hs hl
        | cons a b => simp
      by_cases hc : st.currentlyLine = []
      · simpa [hc] using hpos
      · simp [hc]

theorem length_le_length_flatten_map (f : Str → List Str) :
    ∀ (l : List Str), (∀ x ∈ l, 1 ≤ (f x).length) →
      l.length ≤ (l.map f).flatten.length := by
  intro l
  induction l with
  | nil => intro _; simp
  | cons a l ih =>
    intro h
    have h1 := h a (List.mem_cons_self _ _)
    have h2 := ih (fun x hx => h x (List.mem_cons_of_mem _ hx))
    simp only [List.map_cons, List.flatten_cons, List.length_append, List.length_cons]
    omega

theorem getLines_length_extrapolate_le (width : Str → ℚ) (text : Str) (colWidth : ℚ)
    (hcw : 0 < colWidth) (h0 : width [] = 0) :
    (getLines width text colWidth true).length ≤
      (getLines width text colWidth false).length := by
  rw [getLines_true_eq_scanLines, getLines_eq_join]
  exact length_le_length_flatten_map _ _
    (fun line _ => lineStep_length_pos width colWidth line hcw h0)

/-- Claim C17 (wrapping never loses a source line).  For every text, every
positive column width and every width oracle that gives the empty string the
width 0: every source line the scanner yields contributes at least one line to
`getLines` without extrapolation, so `getLines` without extrapolation returns at
least as many lines as with it, and `GetLinesQuantity` without extrapolation is
never smaller than with it. -/
theorem getLines_keeps_source_lines (width : Str → ℚ) (text : Str) (colWidth : ℚ)
    (hcw : 0 < colWidth) (h0 : width [] = 0) :
    (∀ line ∈ scanLines text, 1 ≤ (lineStep width colWidth false [] line).length) ∧
      getLines width text colWidth false =
        ((scanLines text).map (lineStep width colWidth false [])).flatten ∧
      (getLines width text colWidth true).length ≤
        (getLines width text colWidth false).length ∧
      ∀ (pdf : Fpdf) (s : State) (raw : Str) (f : consts.Family) (st : consts.Style)
        (size vp : ℚ) (a : consts.Align) (c : Color),
        pdf.stringWidth f st size = width →
        (GetLinesQuantity pdf s raw ⟨f, st, size, a, true, vp, c⟩ colWidth).1 ≤
          (GetLinesQuantity pdf s raw ⟨f, st, size, a, false, vp, c⟩ colWidth).1 := by
  refine ⟨fun line _ => lineStep_length_pos width colWidth line hcw h0,
    getLines_eq_join width text colWidth false,
    getLines_length_extrapolate_le width text colWidth hcw h0, ?_⟩
  intro pdf s raw f st size vp a c hw
  have hG : GetStringWidth pdf (SetFont s f st size) = width := hw
  simp only [GetLinesQuantity, hG]
  exact getLines_length_extrapolate_le width (pdf.translator raw) colWidth hcw h0

/-- Witness of C17: "The quick brown fox", newline, "ab" in a column of width 12
with width = character count. -/
theorem getLines_keeps_source_lines_witness :
    (0 : ℚ) < 12 ∧ charCount [] = 0 ∧
      (getLines charCount "The quick brown fox\nab".toList 12 true).length ≤
        (getLines charCount "The quick brown fox\nab".toList 12 false).length :=
  ⟨by norm_num, by simp [charCount],
    (getLines_keeps_source_lines charCount "The quick brown fox\nab".toList 12
      (by norm_num) (by simp [charCount])).2.2.1⟩

end Maroto
